import Mathlib

/-!
A shallow embedding of the RAG-Research-Tool ingestion pipeline
(`backend/services/url_fetcher.py`, `backend/services/url_tracking.py`,
`backend/services/preprocessing.py`, and the vector-store step of
`backend/services/embedding.py`), together with proofs of the spec claims.

Python strings are modelled as `List Char`.  Network, browser and database
effects are modelled by explicit oracles / state passing:
  * the per-URL browser task is an oracle `String → TaskOutcome`
    (the task either raises, or runs to a navigation outcome);
  * the `processed_urls` Mongo collection is an explicit list of records,
    threaded through the tracking operations (`ObjectId` wrapping of the
    user id is modelled as the raw id string, and `datetime.utcnow()` as a
    `Nat` clock argument).
All definitions are translated from the Python source; doc comments point
to the function each one embeds.
-/

/-! ## Python string primitives -/

/-- Python's default whitespace set for `str.strip()` (ASCII part). -/
def isPyWhitespace (c : Char) : Bool :=
  c = ' ' || c = '\t' || c = '\n' || c = '\r' || c = '\x0b' || c = '\x0c'

/-- Python `str.strip()` with no arguments. -/
def pyStrip (l : List Char) : List Char :=
  ((l.dropWhile isPyWhitespace).reverse.dropWhile isPyWhitespace).reverse

/-- Line-boundary characters of Python `str.splitlines()` ( `'\r\n'` is
handled as a single boundary in `pySplitlinesGo`). -/
def isLineBreak (c : Char) : Bool :=
  c = '\n' || c = '\r' || c = '\x0b' || c = '\x0c' ||
  c = '\x1c' || c = '\x1d' || c = '\x1e' || c = '\x85' ||
  c = ' ' || c = ' '

/-- Worker for `pySplitlines`; `acc` holds the current line reversed. -/
def pySplitlinesGo : List Char → List Char → List (List Char)
  | acc, [] => if acc = [] then [] else [acc.reverse]
  | acc, '\r' :: '\n' :: rest => acc.reverse :: pySplitlinesGo [] rest
  | acc, c :: rest =>
    if isLineBreak c then acc.reverse :: pySplitlinesGo [] rest
    else pySplitlinesGo (c :: acc) rest

/-- Python `str.splitlines()`: no trailing empty line for a trailing
newline, `""` gives `[]`. -/
def pySplitlines (l : List Char) : List (List Char) :=
  pySplitlinesGo [] l

/-- Python `'\n'.join(lines)`. -/
def joinNl : List (List Char) → List Char
  | [] => []
  | [l] => l
  | l :: l' :: rest => l ++ '\n' :: joinNl (l' :: rest)

/-- Occurrence test for a literal pattern, as `re.search(re.escape(sep), text)`:
true iff `sep` occurs as a contiguous run inside `text`. -/
def containsSub (sep : List Char) : List Char → Bool
  | [] => sep.isEmpty
  | c :: rest => sep.isPrefixOf (c :: rest) || containsSub sep rest

/-- Worker for `splitOnSep`: split on the leftmost, non-overlapping
occurrences of `s0 :: srest`; `acc` holds the current piece reversed. -/
def splitOnSepGo (s0 : Char) (srest : List Char) : List Char → List Char → List (List Char)
  | acc, [] => [acc.reverse]
  | acc, c :: rest =>
    if (s0 :: srest).isPrefixOf (c :: rest) then
      acc.reverse :: splitOnSepGo s0 srest [] (List.drop srest.length rest)
    else
      splitOnSepGo s0 srest (c :: acc) rest
termination_by _ text => text.length
decreasing_by
  · simp only [List.length_cons, List.length_drop]
    omega
  · simp

/-- Python `re.split(re.escape(sep), text)` for a non-empty literal `sep`. -/
def splitOnSep (s0 : Char) (srest : List Char) (text : List Char) : List (List Char) :=
  splitOnSepGo s0 srest [] text

/-! ## URLFetcherService (`backend/services/url_fetcher.py`) -/

namespace UrlFetcher

/-- `URLFetcherService._clean_text`: strip every line, drop blank lines,
rejoin with single newlines. -/
def clean_text (text : List Char) : List Char :=
  let lines := (pySplitlines text).filterMap
    (fun line => let s := pyStrip line; if s = [] then none else some s)
  joinNl lines

/-- The result dictionary produced by `_fetch_async`
(`{success, text, url, method, error}`). -/
structure FetchResult where
  success : Bool
  text : List Char
  url : String
  method : String
  error : Option String
deriving DecidableEq, Repr

/-- Outcome of the browser interaction inside `_fetch_async` up to the
point where the page text has been read:
* `timeout`: a `PlaywrightTimeoutError` was raised;
* `exn e`: another exception with message `e` was raised;
* `ok raw`: navigation and evaluation completed and returned `raw` as the
  extracted `innerText`. -/
inductive NavOutcome where
  | timeout : NavOutcome
  | exn : String → NavOutcome
  | ok : List Char → NavOutcome
deriving DecidableEq, Repr

/-- `URLFetcherService._fetch_async`, given the outcome of the browser
interaction for `url`: timeouts and exceptions are converted to failure
results, and otherwise the cleaned text is validated (`< 100` characters
fails with `Insufficient text content extracted`). -/
def fetch_async (url : String) (nav : NavOutcome) : FetchResult :=
  match nav with
  | .timeout => ⟨false, [], url, "playwright", some "Browser timeout"⟩
  | .exn e => ⟨false, [], url, "playwright", some e⟩
  | .ok raw =>
    let ct := clean_text raw
    if ct = [] || ct.length < 100 then
      ⟨false, [], url, "playwright", some "Insufficient text content extracted"⟩
    else
      ⟨true, ct, url, "playwright", none⟩

/-- One task of `fetch_multiple_async`: either the task body ran
`_fetch_async` to completion on a navigation outcome, or the task itself
raised (caught by `asyncio.gather(..., return_exceptions=True)`). -/
inductive TaskOutcome where
  | raised : String → TaskOutcome
  | ran : NavOutcome → TaskOutcome

/-- The value a single gathered task yields: a `FetchResult`, or the
exception it raised. -/
def runTask (oracle : String → TaskOutcome) (url : String) : Except String FetchResult :=
  match oracle url with
  | .raised e => .error e
  | .ran nav => .ok (fetch_async url nav)

/-- `URLFetcherService.fetch_multiple_async`: one task per URL, gathered
with `return_exceptions=True` (so results align with the input order), then
the conversion loop that turns a raised exception for `urls[i]` into a
failed result for `urls[i]`. -/
def fetch_multiple_async (oracle : String → TaskOutcome) (urls : List String) :
    List FetchResult :=
  let results := urls.map (runTask oracle)
  (urls.zip results).map
    (fun p =>
      match p.2 with
      | .error e => ⟨false, [], p.1, "playwright", some e⟩
      | .ok r => r)

end UrlFetcher

/-! ## RecursiveCharacterTextSplitter (the `langchain_text_splitters`
dependency, configured in `PreprocessingService.__init__` with
`chunk_size=1000`, `chunk_overlap=200`,
`separators=["\n\n", "\n", ".", " ", ""]`; defaults `keep_separator=True`,
`strip_whitespace=True`, `length_function=len`). -/

namespace TextSplitter

/-- The separator-selection loop at the top of
`RecursiveCharacterTextSplitter._split_text`: pick the first separator
that is `""` or occurs in the text (returning the remaining separators as
`new_separators`); if none matches, use the last separator with no
`new_separators`. -/
def chooseSep : List (List Char) → List Char → List Char × List (List Char)
  | [], _ => ([], [])
  | [s], _ => (s, [])
  | s :: s' :: rest, text =>
    if s = [] then (s, [])
    else if containsSub s text then (s, s' :: rest)
    else chooseSep (s' :: rest) text

/-- `_split_text_with_regex(text, separator, keep_separator=True)`: split on
the literal separator, re-attach each separator occurrence to the front of
the following piece, and drop empty pieces; the `""` separator yields the
list of single characters. -/
def splitKeepSep (sep : List Char) (text : List Char) : List (List Char) :=
  match sep with
  | [] => text.map (fun c => [c])
  | s0 :: srest =>
    match splitOnSep s0 srest text with
    | [] => []
    | t0 :: ts => (t0 :: ts.map (fun t => sep ++ t)).filter (fun t => t ≠ [])

/-- `TextSplitter._join_docs(docs, separator="")` (the merge separator is
`""` because `keep_separator=True`): concatenate, strip whitespace, and
drop the chunk if it is empty. -/
def join_docs (docs : List (List Char)) : Option (List Char) :=
  let text := pyStrip docs.flatten
  if text = [] then none else some text

/-- The pop-from-the-front `while` loop inside `TextSplitter._merge_splits`
(specialised to a zero-length merge separator): keep removing the first
pending split while the pending total exceeds the overlap, or it is
positive and would overflow the chunk size together with the next split of
length `dlen`. -/
def popLoop (chunkOverlap chunkSize dlen : Nat) : List (List Char) → Nat → List (List Char) × Nat
  | [], total => ([], total)
  | x :: xs, total =>
    if total > chunkOverlap ∨ (total + dlen > chunkSize ∧ total > 0) then
      popLoop chunkOverlap chunkSize dlen xs (total - x.length)
    else (x :: xs, total)

/-- The loop state of `_merge_splits`: emitted chunks, the pending splits
`current_doc`, and their total length. -/
structure MergeState where
  docs : List (List Char)
  current : List (List Char)
  total : Nat
deriving Repr

/-- One iteration of the `for d in splits` loop of `TextSplitter._merge_splits`
(merge separator `""`). -/
def mergeStep (chunkSize chunkOverlap : Nat) (st : MergeState) (d : List Char) : MergeState :=
  let dlen := d.length
  if st.total + dlen > chunkSize then
    let docs' :=
      if st.current ≠ [] then
        match join_docs st.current with
        | some doc => st.docs ++ [doc]
        | none => st.docs
      else st.docs
    let ct :=
      if st.current ≠ [] then popLoop chunkOverlap chunkSize dlen st.current st.total
      else (st.current, st.total)
    ⟨docs', ct.1 ++ [d], ct.2 + dlen⟩
  else
    ⟨st.docs, st.current ++ [d], st.total + dlen⟩

/-- `TextSplitter._merge_splits(splits, separator="")`. -/
def merge_splits (chunkSize chunkOverlap : Nat) (splits : List (List Char)) : List (List Char) :=
  let st := splits.foldl (mergeStep chunkSize chunkOverlap) ⟨[], [], 0⟩
  match join_docs st.current with
  | some doc => st.docs ++ [doc]
  | none => st.docs

/-- The `for s in splits` loop of `RecursiveCharacterTextSplitter._split_text`:
splits shorter than `chunk_size` accumulate in `good` and are merged; a
split of length `≥ chunk_size` first flushes `good`, then is either kept
whole (no separators left) or split recursively via `recSplit`. -/
def splitsLoop (chunkSize chunkOverlap : Nat) (recSplit : List Char → List (List Char))
    (noNewSeps : Bool) : List (List Char) → List (List Char) → List (List Char) → List (List Char)
  | [], final, good =>
    if good = [] then final else final ++ merge_splits chunkSize chunkOverlap good
  | s :: rest, final, good =>
    if s.length < chunkSize then
      splitsLoop chunkSize chunkOverlap recSplit noNewSeps rest final (good ++ [s])
    else
      let final1 := if good = [] then final else final ++ merge_splits chunkSize chunkOverlap good
      let final2 := if noNewSeps then final1 ++ [s] else final1 ++ recSplit s
      splitsLoop chunkSize chunkOverlap recSplit noNewSeps rest final2 []

/-- `RecursiveCharacterTextSplitter._split_text(text, separators)`.  The
`fuel` argument bounds the recursion depth; it is always called with
`fuel ≥ separators.length`, and `new_separators` is strictly shorter than
`separators`, so the `fuel = 0` default is never reached. -/
def split_text_core (chunkSize chunkOverlap : Nat) :
    Nat → List (List Char) → List Char → List (List Char)
  | 0, _, text => [text]
  | fuel + 1, seps, text =>
    let sc := chooseSep seps text
    let splits := splitKeepSep sc.1 text
    splitsLoop chunkSize chunkOverlap
      (split_text_core chunkSize chunkOverlap fuel sc.2) (sc.2 = []) splits [] []

/-- `RecursiveCharacterTextSplitter.split_text`. -/
def split_text (chunkSize chunkOverlap : Nat) (seps : List (List Char)) (text : List Char) :
    List (List Char) :=
  split_text_core chunkSize chunkOverlap seps.length seps text

/-- The separator list configured in `PreprocessingService.__init__`. -/
def defaultSeparators : List (List Char) :=
  [['\n', '\n'], ['\n'], ['.'], [' '], []]

end TextSplitter

/-! ## URLTrackingService (`backend/services/url_tracking.py`) -/

namespace UrlTracking

/-- One document of the `processed_urls` collection
(`{user_id, url, processed_at, num_chunks, status}`).  The `ObjectId`
around the user id is modelled as the raw id string, and `processed_at`
as a `Nat` timestamp. -/
structure URLRecord where
  user_id : String
  url : String
  processed_at : Nat
  num_chunks : Nat
  status : String
deriving DecidableEq, Repr

/-- The `processed_urls` collection, in insertion order. -/
abbrev Store := List URLRecord

/-- `URLTrackingService.is_url_processed`: a `find_one` on
`{user_id, url, status: "success"}` returns a document. -/
def is_url_processed (store : Store) (user_id url : String) : Bool :=
  (List.find? (fun r => r.user_id = user_id && r.url = url && r.status = "success") store).isSome

/-- The `$set` document of `mark_url_processed`, applied to the first
record matching `(user_id, url)` (Mongo `update_one`); `replaceFirst` is
its recursion over the collection. -/
def replaceFirst (user_id url : String) (num_chunks : Nat) (status : String) (now : Nat) :
    Store → Store
  | [] => []
  | r :: rest =>
    if r.user_id = user_id && r.url = url then
      ⟨user_id, url, now, num_chunks, status⟩ :: rest
    else r :: replaceFirst user_id url num_chunks status now rest

/-- `URLTrackingService.mark_url_processed`: `update_one` with filter
`{user_id, url}`, a full `$set` of all fields, and `upsert=True` — update
the first matching record, or insert a fresh one when none matches. -/
def mark_url_processed (store : Store) (user_id url : String) (num_chunks : Nat)
    (status : String) (now : Nat) : Store :=
  if (List.find? (fun r => r.user_id = user_id && r.url = url) store).isSome then
    replaceFirst user_id url num_chunks status now store
  else
    store ++ [⟨user_id, url, now, num_chunks, status⟩]

/-- The `for url in urls` loop of `filter_new_urls`, with the two
accumulating lists. -/
def filterNewGo (store : Store) (user_id : String) :
    List String → List String → List String → List String × List String
  | [], new_urls, skipped_urls => (new_urls, skipped_urls)
  | url :: rest, new_urls, skipped_urls =>
    if is_url_processed store user_id url then
      filterNewGo store user_id rest new_urls (skipped_urls ++ [url])
    else
      filterNewGo store user_id rest (new_urls ++ [url]) skipped_urls

/-- `URLTrackingService.filter_new_urls`: returns `(new, skipped)`. -/
def filter_new_urls (store : Store) (user_id : String) (urls : List String) :
    List String × List String :=
  filterNewGo store user_id urls [] []

end UrlTracking

/-! ## PreprocessingService (`backend/services/preprocessing.py`) -/

namespace Preprocessing

open UrlFetcher UrlTracking TextSplitter

/-- A LangChain `Document` as built in `load_urls`
(`page_content` plus the metadata keys `source`, `fetch_method`,
`user_id`); chunks produced by `split_documents` have the same shape,
with metadata copied from the parent document. -/
structure LCDocument where
  page_content : List Char
  source : String
  fetch_method : String
  user_id : String
deriving DecidableEq, Repr

/-- `RecursiveCharacterTextSplitter.split_documents` /
`create_documents`: split each document's text and copy its metadata to
every chunk. -/
def split_documents (chunkSize chunkOverlap : Nat) (seps : List (List Char))
    (docs : List LCDocument) : List LCDocument :=
  docs.flatMap (fun d =>
    (split_text chunkSize chunkOverlap seps d.page_content).map
      (fun t => { d with page_content := t }))

/-- `PreprocessingService.chunk_documents` with the splitter configured in
`__init__` (`chunk_size=1000`, `chunk_overlap=200`, default separators). -/
def chunk_documents (documents : List LCDocument) : List LCDocument :=
  if documents = [] then [] else split_documents 1000 200 defaultSeparators documents

/-- The dictionary `load_urls` returns
(`{documents, new_urls, skipped_urls, failed_urls}`); each failed entry is
the pair `{url, error}`. -/
structure LoadOut where
  documents : List LCDocument
  new_urls : List String
  skipped_urls : List String
  failed_urls : List (String × String)
deriving DecidableEq, Repr

/-- `PreprocessingService.load_urls`.  The second component records the
URL list handed to `fetch_multiple_async` (empty when validation fails or
every URL was filtered out), so that "no fetch occurs" is observable.
Validation errors are the `ValueError`s raised before the `try` block; no
operation inside the modelled `try` block can raise. -/
def load_urls (store : Store) (oracle : String → TaskOutcome) (urls : List String)
    (user_id : String) : Except String LoadOut × List String :=
  if urls = [] then (.error "URLs list cannot be empty", [])
  else if urls.length > 10 then (.error "Maximum 10 URLs allowed", [])
  else
    let uf := filter_new_urls store user_id urls
    let new_urls := uf.1
    let skipped_urls := uf.2
    if new_urls ≠ [] then
      let fetch_results := fetch_multiple_async oracle new_urls
      let documents := fetch_results.filterMap (fun r =>
        if r.success then some ⟨r.text, r.url, r.method, user_id⟩ else none)
      let failed_urls := fetch_results.filterMap (fun r =>
        if r.success then none else some (r.url, r.error.getD ""))
      (.ok ⟨documents, new_urls, skipped_urls, failed_urls⟩, new_urls)
    else
      (.ok ⟨[], new_urls, skipped_urls, []⟩, [])

/-- A value of the heterogeneous result dictionary of `process_urls`. -/
inductive PyVal where
  | vbool : Bool → PyVal
  | vnat : Nat → PyVal
  | vstr : String → PyVal
  | vstrlist : List String → PyVal
  | vchunks : List LCDocument → PyVal
deriving DecidableEq, Repr

/-- The result dictionary: keys in the order they are written in the
source. -/
abbrev PyDict := List (String × PyVal)

/-- The f-string message of the success dictionary. -/
def successMessage (numDocs numSkipped : Nat) : String :=
  "Processed " ++ toString numDocs ++ " new articles (skipped " ++
    toString numSkipped ++ " duplicates)"

/-- The dictionary built in the `except` branch of `process_urls`. -/
def errorDict (e : String) : PyDict :=
  [("success", .vbool false), ("chunks", .vchunks []), ("num_documents", .vnat 0),
   ("num_chunks", .vnat 0), ("new_urls", .vnat 0), ("skipped_urls", .vnat 0),
   ("failed_urls", .vnat 0), ("error", .vstr e)]

/-- The dictionary built in the success branch of `process_urls`. -/
def successDict (lr : LoadOut) (chunks : List LCDocument) : PyDict :=
  [("success", .vbool true), ("chunks", .vchunks chunks),
   ("num_documents", .vnat lr.documents.length), ("num_chunks", .vnat chunks.length),
   ("new_urls", .vnat lr.new_urls.length), ("skipped_urls", .vnat lr.skipped_urls.length),
   ("failed_urls", .vnat lr.failed_urls.length),
   ("skipped_url_list", .vstrlist lr.skipped_urls),
   ("failed_url_list", .vstrlist (lr.failed_urls.map (fun f => f.1))),
   ("message", .vstr (successMessage lr.documents.length lr.skipped_urls.length))]

/-- The observable outcome of one `process_urls` call: the returned
dictionary, the final `processed_urls` collection, and the URLs that were
handed to the fetch engine. -/
structure PipelineRun where
  result : PyDict
  store : Store
  fetched : List String
deriving Repr

/-- The `for doc in documents` tracking loop of `process_urls`: count the
chunks whose `source` metadata equals the document's and mark the URL
processed with `status="success"` (skipped when the `source` value is
falsy, i.e. the empty string). -/
def trackSuccesses (user_id : String) (now : Nat) (chunks : List LCDocument)
    (documents : List LCDocument) (store : Store) : Store :=
  documents.foldl (fun st doc =>
    if doc.source ≠ "" then
      let url_chunks := chunks.filter (fun c => c.source = doc.source)
      mark_url_processed st user_id doc.source url_chunks.length "success" now
    else st) store

/-- `PreprocessingService.process_urls`. -/
def process_urls (store : Store) (oracle : String → TaskOutcome) (urls : List String)
    (user_id : String) (now : Nat) : PipelineRun :=
  match load_urls store oracle urls user_id with
  | (.error e, fetched) => ⟨errorDict e, store, fetched⟩
  | (.ok lr, fetched) =>
    let chunks := chunk_documents lr.documents
    let store1 := trackSuccesses user_id now chunks lr.documents store
    let store2 := lr.failed_urls.foldl
      (fun st f => mark_url_processed st user_id f.1 0 "failed" now) store1
    ⟨successDict lr chunks, store2, fetched⟩

end Preprocessing

/-! ## EmbeddingService.store_documents (`backend/services/embedding.py`) -/

namespace Embedding

open Preprocessing

/-- One Pinecone vector as assembled in `store_documents`: the id embeds
the enumeration index and the call time, and the metadata records the
chunk text, its `source`, and `chunk_id = i` — the index of the chunk in
the whole batch. -/
structure PineVector where
  id : String
  values : List Int
  metadata_text : List Char
  metadata_source : String
  metadata_chunk_id : Nat
deriving DecidableEq, Repr

/-- The vectors upserted by `EmbeddingService.store_documents` (the
batched `index.upsert` calls every 50 vectors write exactly this list, in
order); `embed` models `generate_embedding` and `now` the `int(time.time())`
stamp. -/
def store_documents (embed : List Char → List Int) (now : Nat)
    (chunks : List LCDocument) : List PineVector :=
  chunks.enum.map (fun p =>
    { id := "chunk_" ++ toString p.1 ++ "_" ++ toString now,
      values := embed p.2.page_content,
      metadata_text := p.2.page_content,
      metadata_source := p.2.source,
      metadata_chunk_id := p.1 })

end Embedding

/-! ## Claim C2: `filter_new_urls` is an order-preserving partition -/

namespace UrlTracking

/-- `filterNewGo` appends the partition of the remaining URLs to its
accumulators. -/
theorem filterNewGo_eq (store : Store) (user_id : String) (urls news skips : List String) :
    filterNewGo store user_id urls news skips =
      (news ++ urls.filter (fun u => !(is_url_processed store user_id u)),
       skips ++ urls.filter (fun u => is_url_processed store user_id u)) := by
  induction urls generalizing news skips with
  | nil => simp [filterNewGo]
  | cons u rest ih =>
    by_cases h : is_url_processed store user_id u
    · simp [filterNewGo, h, ih, List.filter_cons]
    · simp [filterNewGo, h, ih, List.filter_cons]

/-- `filter_new_urls` returns exactly the two filters of the input. -/
theorem filter_new_urls_eq (store : Store) (user_id : String) (urls : List String) :
    filter_new_urls store user_id urls =
      (urls.filter (fun u => !(is_url_processed store user_id u)),
       urls.filter (fun u => is_url_processed store user_id u)) := by
  simp [filter_new_urls, filterNewGo_eq]

/-- `is_url_processed` is the existence of a success-status record for
`(user_id, url)`. -/
theorem is_url_processed_iff (store : Store) (user_id url : String) :
    is_url_processed store user_id url = true ↔
      ∃ r ∈ store, r.user_id = user_id ∧ r.url = url ∧ r.status = "success" := by
  simp [is_url_processed, List.find?_isSome, and_assoc]

end UrlTracking

open UrlTracking in
/-- C2: for every user and ordered URL list, `filter_new_urls` returns
`(new, skipped)` with `len(new) + len(skipped) = len(input)`, each list an
order-preserving sublist of the input, and a URL of the input lands in
`skipped` iff `is_url_processed` holds for it (i.e. a success-status
record exists for the pair), in `new` iff it does not. -/
theorem claim_C2_filter_new_urls_partition (store : Store) (user_id : String)
    (urls : List String) :
    (filter_new_urls store user_id urls).1.length
        + (filter_new_urls store user_id urls).2.length = urls.length ∧
    (filter_new_urls store user_id urls).1.Sublist urls ∧
    (filter_new_urls store user_id urls).2.Sublist urls ∧
    ∀ u ∈ urls,
      (u ∈ (filter_new_urls store user_id urls).2 ↔
        (∃ r ∈ store, r.user_id = user_id ∧ r.url = u ∧ r.status = "success")) ∧
      (u ∈ (filter_new_urls store user_id urls).1 ↔
        ¬ (∃ r ∈ store, r.user_id = user_id ∧ r.url = u ∧ r.status = "success")) := by
  rw [filter_new_urls_eq store user_id urls]
  refine ⟨?_, ?_, ?_, ?_⟩
  · have := List.length_eq_length_filter_add (l := urls)
      (fun u => is_url_processed store user_id u)
    simp only [Bool.not_eq_true]
    omega
  · exact List.filter_sublist urls
  · exact List.filter_sublist urls
  · intro u hu
    constructor
    · rw [← is_url_processed_iff store user_id u]
      simp [List.mem_filter, hu]
    · rw [← is_url_processed_iff store user_id u]
      simp [List.mem_filter, hu]

open UrlTracking in
/-- Witness for C2 at a concrete store and batch: the user has a success
record for `"http://b"` only, so the batch `[a, b, c]` splits into
`new = [a, c]`, `skipped = [b]`. -/
theorem claim_C2_witness :
    (filter_new_urls [⟨"u1", "http://b", 3, 7, "success"⟩] "u1"
        ["http://a", "http://b", "http://c"]).1.length
      + (filter_new_urls [⟨"u1", "http://b", 3, 7, "success"⟩] "u1"
        ["http://a", "http://b", "http://c"]).2.length
      = (["http://a", "http://b", "http://c"] : List String).length ∧
    (filter_new_urls [⟨"u1", "http://b", 3, 7, "success"⟩] "u1"
        ["http://a", "http://b", "http://c"]).1.Sublist
      ["http://a", "http://b", "http://c"] ∧
    (filter_new_urls [⟨"u1", "http://b", 3, 7, "success"⟩] "u1"
        ["http://a", "http://b", "http://c"]).2.Sublist
      ["http://a", "http://b", "http://c"] ∧
    ∀ u ∈ ["http://a", "http://b", "http://c"],
      (u ∈ (filter_new_urls [⟨"u1", "http://b", 3, 7, "success"⟩] "u1"
          ["http://a", "http://b", "http://c"]).2 ↔
        (∃ r ∈ ([⟨"u1", "http://b", 3, 7, "success"⟩] : Store),
          r.user_id = "u1" ∧ r.url = u ∧ r.status = "success")) ∧
      (u ∈ (filter_new_urls [⟨"u1", "http://b", 3, 7, "success"⟩] "u1"
          ["http://a", "http://b", "http://c"]).1 ↔
        ¬ (∃ r ∈ ([⟨"u1", "http://b", 3, 7, "success"⟩] : Store),
          r.user_id = "u1" ∧ r.url = u ∧ r.status = "success")) :=
  claim_C2_filter_new_urls_partition
    [⟨"u1", "http://b", 3, 7, "success"⟩] "u1" ["http://a", "http://b", "http://c"]

/-! ## Claim C3: `mark_url_processed` is an upsert keyed by `(user_id, url)` -/

namespace UrlTracking

/-- The `update_one` filter of `mark_url_processed`. -/
def keyMatch (user_id url : String) (r : URLRecord) : Bool :=
  r.user_id = user_id && r.url = url

/-- Number of records for one `(user_id, url)` key. -/
def countKey (store : Store) (user_id url : String) : Nat :=
  store.countP (keyMatch user_id url)

theorem replaceFirst_length (user_id url : String) (n : Nat) (s : String) (now : Nat)
    (store : Store) :
    (replaceFirst user_id url n s now store).length = store.length := by
  induction store with
  | nil => rfl
  | cons r rest ih =>
    by_cases h : (r.user_id = user_id && r.url = url) = true
    · simp [replaceFirst, h]
    · simp [replaceFirst, h, ih]

theorem replaceFirst_filter_key (user_id url : String) (n : Nat) (s : String) (now : Nat)
    (store : Store) (h : countKey store user_id url = 1) :
    (replaceFirst user_id url n s now store).filter (keyMatch user_id url) =
      [⟨user_id, url, now, n, s⟩] := by
  induction store with
  | nil => simp [countKey] at h
  | cons r rest ih =>
    rw [countKey, List.countP_cons] at h
    by_cases hr : keyMatch user_id url r = true
    · have hrest : rest.countP (keyMatch user_id url) = 0 := by
        simp only [hr, if_true] at h; omega
      have hfil : rest.filter (keyMatch user_id url) = [] :=
        List.filter_eq_nil_iff.mpr (List.countP_eq_zero.mp hrest)
      have hkey : keyMatch user_id url (⟨user_id, url, now, n, s⟩ : URLRecord) = true := by
        simp [keyMatch]
      have hr' : (r.user_id = user_id && r.url = url) = true := hr
      simp only [replaceFirst]
      rw [if_pos hr', List.filter_cons, hkey, hfil]
      simp
    · have hr' : ¬ ((r.user_id = user_id && r.url = url) = true) := hr
      have hrest : countKey rest user_id url = 1 := by
        simp only [hr, Bool.false_eq_true, if_false] at h
        simpa [countKey] using h
      simp only [replaceFirst]
      rw [if_neg hr', List.filter_cons]
      simp only [hr, Bool.false_eq_true, if_false, cond_false]
      simp [hr, ih hrest]

theorem replaceFirst_filter_other (user_id url : String) (n : Nat) (s : String) (now : Nat)
    (store : Store) (user' url' : String) (hne : ¬ (user' = user_id ∧ url' = url)) :
    (replaceFirst user_id url n s now store).filter (keyMatch user' url') =
      store.filter (keyMatch user' url') := by
  have hrnew : keyMatch user' url' (⟨user_id, url, now, n, s⟩ : URLRecord) = false := by
    simp only [keyMatch, Bool.and_eq_false_iff, decide_eq_false_iff_not]
    by_contra hc
    push_neg at hc
    exact hne ⟨(hc.1).symm, (hc.2).symm⟩
  induction store with
  | nil => rfl
  | cons r rest ih =>
    by_cases hr : (r.user_id = user_id && r.url = url) = true
    · have hrold : keyMatch user' url' r = false := by
        simp only [Bool.and_eq_true, decide_eq_true_eq] at hr
        simp only [keyMatch, Bool.and_eq_false_iff, decide_eq_false_iff_not]
        by_contra hc
        push_neg at hc
        exact hne ⟨by rw [← hc.1, hr.1], by rw [← hc.2, hr.2]⟩
      simp [replaceFirst, hr, List.filter_cons, hrold, hrnew]
    · simp [replaceFirst, hr, List.filter_cons, ih]

end UrlTracking

namespace UrlTracking

/-- After `mark_url_processed` on a key stored at most once, the records
for that key are exactly the one freshly written record. -/
theorem mark_filter_key (store : Store) (user_id url : String) (n : Nat) (s : String)
    (now : Nat) (h : countKey store user_id url ≤ 1) :
    (mark_url_processed store user_id url n s now).filter (keyMatch user_id url) =
      [⟨user_id, url, now, n, s⟩] := by
  have hkey : keyMatch user_id url (⟨user_id, url, now, n, s⟩ : URLRecord) = true := by
    simp [keyMatch]
  rw [mark_url_processed]
  by_cases hf : (List.find? (fun r => r.user_id = user_id && r.url = url) store).isSome = true
  · rw [if_pos hf]
    have hex : ∃ r ∈ store, (r.user_id = user_id && r.url = url) = true :=
      List.find?_isSome.mp hf
    have h1 : 1 ≤ countKey store user_id url := by
      obtain ⟨r, hr, hkr⟩ := hex
      have : keyMatch user_id url r = true := hkr
      calc 1 = List.countP (keyMatch user_id url) [r] := by simp [this]
        _ ≤ countKey store user_id url := by
            rw [countKey]
            exact List.Sublist.countP_le (keyMatch user_id url)
              (List.singleton_sublist.mpr hr)
    exact replaceFirst_filter_key user_id url n s now store (by omega)
  · rw [if_neg hf]
    have hnone : ∀ r ∈ store, ¬ ((r.user_id = user_id && r.url = url) = true) := by
      intro r hr hc
      exact hf (List.find?_isSome.mpr ⟨r, hr, hc⟩)
    have : store.filter (keyMatch user_id url) = [] :=
      List.filter_eq_nil_iff.mpr hnone
    rw [List.filter_append, this]
    simp [hkey]

/-- `mark_url_processed` leaves the records of every other key untouched. -/
theorem mark_filter_other (store : Store) (user_id url : String) (n : Nat) (s : String)
    (now : Nat) (user' url' : String) (hne : ¬ (user' = user_id ∧ url' = url)) :
    (mark_url_processed store user_id url n s now).filter (keyMatch user' url') =
      store.filter (keyMatch user' url') := by
  have hrnew : keyMatch user' url' (⟨user_id, url, now, n, s⟩ : URLRecord) = false := by
    simp only [keyMatch, Bool.and_eq_false_iff, decide_eq_false_iff_not]
    by_contra hc
    push_neg at hc
    exact hne ⟨(hc.1).symm, (hc.2).symm⟩
  rw [mark_url_processed]
  by_cases hf : (List.find? (fun r => r.user_id = user_id && r.url = url) store).isSome = true
  · rw [if_pos hf]
    exact replaceFirst_filter_other user_id url n s now store user' url' hne
  · rw [if_neg hf, List.filter_append]
    simp [hrnew]

/-- `mark_url_processed` preserves the at-most-one-record-per-key
invariant that the unique index on `(user_id, url)` provides. -/
theorem mark_at_most_one (store : Store) (user_id url : String) (n : Nat) (s : String)
    (now : Nat) (h : ∀ u₀ l₀, countKey store u₀ l₀ ≤ 1) :
    ∀ u₀ l₀, countKey (mark_url_processed store user_id url n s now) u₀ l₀ ≤ 1 := by
  intro u₀ l₀
  by_cases he : u₀ = user_id ∧ l₀ = url
  · obtain ⟨h1, h2⟩ := he
    subst h1; subst h2
    rw [countKey, List.countP_eq_length_filter,
      mark_filter_key store u₀ l₀ n s now (h u₀ l₀)]
    simp
  · rw [countKey, List.countP_eq_length_filter, mark_filter_other store user_id url n s now u₀ l₀ he,
      ← List.countP_eq_length_filter]
    exact h u₀ l₀

/-- The length of the store after `mark_url_processed`: unchanged when a
record for the key exists, grown by the inserted record otherwise. -/
theorem mark_length (store : Store) (user_id url : String) (n : Nat) (s : String) (now : Nat) :
    (mark_url_processed store user_id url n s now).length =
      if (List.find? (fun r => r.user_id = user_id && r.url = url) store).isSome
      then store.length else store.length + 1 := by
  rw [mark_url_processed]
  by_cases hf : (List.find? (fun r => r.user_id = user_id && r.url = url) store).isSome = true
  · rw [if_pos hf, if_pos hf, replaceFirst_length]
  · rw [if_neg hf, if_neg hf]
    simp

end UrlTracking

open UrlTracking in
/-- C3: starting from a store with at most one record per `(user_id, url)`
key (the unique index), marking `(U, u)` with `status="success"` makes
`is_url_processed` true, leaves exactly one record for the key carrying the
written fields, and a second mark for the same key with different
`num_chunks`/`status` overwrites that record in place: still exactly one
record for the key, with the new fields, and no growth of the store. -/
theorem claim_C3_mark_then_processed_and_upsert (store : Store) (U u : String)
    (n n' now now' : Nat) (s' : String)
    (hAMO : ∀ u₀ l₀, countKey store u₀ l₀ ≤ 1) :
    is_url_processed (mark_url_processed store U u n "success" now) U u = true ∧
    (mark_url_processed store U u n "success" now).filter (keyMatch U u) =
      [⟨U, u, now, n, "success"⟩] ∧
    countKey (mark_url_processed store U u n "success" now) U u = 1 ∧
    (mark_url_processed (mark_url_processed store U u n "success" now) U u n' s' now').filter
        (keyMatch U u) = [⟨U, u, now', n', s'⟩] ∧
    countKey (mark_url_processed (mark_url_processed store U u n "success" now) U u n' s' now')
        U u = 1 ∧
    (mark_url_processed (mark_url_processed store U u n "success" now) U u n' s' now').length =
      (mark_url_processed store U u n "success" now).length ∧
    (∀ u₀ l₀,
      countKey (mark_url_processed (mark_url_processed store U u n "success" now) U u n' s' now')
        u₀ l₀ ≤ 1) := by
  have hfil1 := mark_filter_key store U u n "success" now (hAMO U u)
  have hAMO1 := mark_at_most_one store U u n "success" now hAMO
  have hmem1 : (⟨U, u, now, n, "success"⟩ : URLRecord) ∈
      mark_url_processed store U u n "success" now := by
    have : (⟨U, u, now, n, "success"⟩ : URLRecord) ∈
        (mark_url_processed store U u n "success" now).filter (keyMatch U u) := by
      rw [hfil1]; exact List.mem_singleton_self _
    exact (List.mem_filter.mp this).1
  have hfil2 := mark_filter_key (mark_url_processed store U u n "success" now) U u n' s' now'
    (hAMO1 U u)
  refine ⟨?_, hfil1, ?_, hfil2, ?_, ?_, ?_⟩
  · exact (is_url_processed_iff _ U u).mpr ⟨_, hmem1, rfl, rfl, rfl⟩
  · rw [countKey, List.countP_eq_length_filter, hfil1]; rfl
  · rw [countKey, List.countP_eq_length_filter, hfil2]; rfl
  · rw [mark_length]
    have : (List.find? (fun r => r.user_id = U && r.url = u)
        (mark_url_processed store U u n "success" now)).isSome = true :=
      List.find?_isSome.mpr ⟨_, hmem1, by simp⟩
    rw [if_pos this]
  · exact mark_at_most_one _ U u n' s' now' hAMO1

open UrlTracking in
/-- Witness for C3 at the empty store, key `("u1", "http://a")`,
`n = 4`, then an overwrite with `n' = 9`, `status' = "failed"`. -/
theorem claim_C3_witness :
    is_url_processed (mark_url_processed [] "u1" "http://a" 4 "success" 10) "u1" "http://a"
      = true ∧
    (mark_url_processed [] "u1" "http://a" 4 "success" 10).filter (keyMatch "u1" "http://a") =
      [⟨"u1", "http://a", 10, 4, "success"⟩] ∧
    countKey (mark_url_processed [] "u1" "http://a" 4 "success" 10) "u1" "http://a" = 1 ∧
    (mark_url_processed (mark_url_processed [] "u1" "http://a" 4 "success" 10) "u1" "http://a"
        9 "failed" 11).filter (keyMatch "u1" "http://a") =
      [⟨"u1", "http://a", 11, 9, "failed"⟩] ∧
    countKey (mark_url_processed (mark_url_processed [] "u1" "http://a" 4 "success" 10) "u1"
        "http://a" 9 "failed" 11) "u1" "http://a" = 1 ∧
    (mark_url_processed (mark_url_processed [] "u1" "http://a" 4 "success" 10) "u1" "http://a"
        9 "failed" 11).length =
      (mark_url_processed [] "u1" "http://a" 4 "success" 10).length ∧
    (∀ u₀ l₀,
      countKey (mark_url_processed (mark_url_processed [] "u1" "http://a" 4 "success" 10) "u1"
        "http://a" 9 "failed" 11) u₀ l₀ ≤ 1) :=
  claim_C3_mark_then_processed_and_upsert [] "u1" "http://a" 4 9 10 11 "failed"
    (fun u₀ l₀ => by simp [countKey])

/-! ## Claim C4: `fetch_multiple_async` alignment and failure isolation -/

namespace UrlFetcher

/-- What one gathered slot of `fetch_multiple_async` contains for `u`:
the task's `FetchResult`, or the failure result built from its
exception. -/
def gatherResult (oracle : String → TaskOutcome) (u : String) : FetchResult :=
  match runTask oracle u with
  | .error e => ⟨false, [], u, "playwright", some e⟩
  | .ok r => r

theorem zip_map_self {α β γ : Type} (f : α → β) (g : α × β → γ) (l : List α) :
    ((l.zip (l.map f)).map g) = l.map (fun a => g (a, f a)) := by
  induction l with
  | nil => rfl
  | cons a rest ih => simp [ih]

theorem fetch_multiple_async_eq_map (oracle : String → TaskOutcome) (urls : List String) :
    fetch_multiple_async oracle urls = urls.map (gatherResult oracle) := by
  rw [fetch_multiple_async]
  rw [zip_map_self (runTask oracle)]
  rfl

/-- `_fetch_async` stamps the input URL into every result. -/
theorem fetch_async_url (url : String) (nav : NavOutcome) : (fetch_async url nav).url = url := by
  cases nav with
  | timeout => rfl
  | exn e => rfl
  | ok raw =>
    rw [fetch_async]
    split <;> rfl

theorem gatherResult_url (oracle : String → TaskOutcome) (u : String) :
    (gatherResult oracle u).url = u := by
  rw [gatherResult, runTask]
  cases oracle u with
  | raised e => rfl
  | ran nav => exact fetch_async_url u nav

end UrlFetcher

open UrlFetcher in
/-- C4: `fetch_multiple_async` returns exactly one `FetchResult` per input
URL with result `i` carrying `urls[i]`; a task that raises is converted to
a failed result for its own URL; and changing the behaviour of one URL `u`
(e.g. making its task raise) leaves the result of every slot whose URL is
not `u` unchanged. -/
theorem claim_C4_fetch_multiple_aligned_isolated (oracle oracle' : String → TaskOutcome)
    (urls : List String) (u : String) (hagree : ∀ v, v ≠ u → oracle v = oracle' v) :
    (fetch_multiple_async oracle urls).length = urls.length ∧
    (∀ i : Nat, ((fetch_multiple_async oracle urls)[i]?.map FetchResult.url) = urls[i]?) ∧
    (∀ i : Nat, ∀ e : String, ∀ v : String, urls[i]? = some v → oracle v = .raised e →
      (fetch_multiple_async oracle urls)[i]? =
        some ⟨false, [], v, "playwright", some e⟩) ∧
    (∀ i : Nat, ∀ v : String, urls[i]? = some v → v ≠ u →
      (fetch_multiple_async oracle urls)[i]? = (fetch_multiple_async oracle' urls)[i]?) := by
  rw [fetch_multiple_async_eq_map, fetch_multiple_async_eq_map]
  refine ⟨by simp, ?_, ?_, ?_⟩
  · intro i
    rw [List.getElem?_map]
    cases h : urls[i]? with
    | none => rfl
    | some v => simp [gatherResult_url]
  · intro i e v hv hov
    rw [List.getElem?_map, hv]
    simp [gatherResult, runTask, hov]
  · intro i v hv hvu
    rw [List.getElem?_map, List.getElem?_map, hv]
    have hg : gatherResult oracle v = gatherResult oracle' v := by
      rw [gatherResult, gatherResult, runTask, runTask, hagree v hvu]
    simp [hg]

open UrlFetcher in
/-- Witness for C4: two URLs, where the second one's task raises under
`oracle` and times out under `oracle'`; the oracles agree away from
`"http://y"`. -/
theorem claim_C4_witness :
    (fetch_multiple_async
        (fun v => if v = "http://y" then .raised "boom" else .ran .timeout)
        ["http://x", "http://y"]).length = (["http://x", "http://y"] : List String).length ∧
    (∀ i : Nat, ((fetch_multiple_async
        (fun v => if v = "http://y" then .raised "boom" else .ran .timeout)
        ["http://x", "http://y"])[i]?.map FetchResult.url) = (["http://x", "http://y"] : List String)[i]?) ∧
    (∀ i : Nat, ∀ e : String, ∀ v : String,
      (["http://x", "http://y"] : List String)[i]? = some v →
      (if v = "http://y" then TaskOutcome.raised "boom" else TaskOutcome.ran .timeout) = .raised e →
      (fetch_multiple_async
        (fun v => if v = "http://y" then .raised "boom" else .ran .timeout)
        ["http://x", "http://y"])[i]? = some ⟨false, [], v, "playwright", some e⟩) ∧
    (∀ i : Nat, ∀ v : String, (["http://x", "http://y"] : List String)[i]? = some v →
      v ≠ "http://y" →
      (fetch_multiple_async
        (fun v => if v = "http://y" then .raised "boom" else .ran .timeout)
        ["http://x", "http://y"])[i]? =
      (fetch_multiple_async (fun _ => .ran .timeout) ["http://x", "http://y"])[i]?) :=
  claim_C4_fetch_multiple_aligned_isolated
    (fun v => if v = "http://y" then .raised "boom" else .ran .timeout)
    (fun _ => .ran .timeout) ["http://x", "http://y"] "http://y"
    (fun v hv => by simp [hv])

open Preprocessing UrlFetcher UrlTracking in
/-- C5: an empty batch or one of more than 10 URLs makes `load_urls` raise
its `ValueError` before anything else runs: the fetch engine receives no
URL, the `processed_urls` store is untouched, and `process_urls` surfaces
the failure to its caller immediately as the error-shaped result built
from that message. -/
theorem claim_C5_validation_rejects_before_fetch (store : Store)
    (oracle : String → TaskOutcome) (urls : List String) (user_id : String) (now : Nat)
    (h : urls = [] ∨ urls.length > 10) :
    (process_urls store oracle urls user_id now).fetched = [] ∧
    (process_urls store oracle urls user_id now).store = store ∧
    (load_urls store oracle urls user_id).1 =
      .error (if urls = [] then "URLs list cannot be empty" else "Maximum 10 URLs allowed") ∧
    (process_urls store oracle urls user_id now).result =
      errorDict (if urls = [] then "URLs list cannot be empty"
                 else "Maximum 10 URLs allowed") ∧
    List.lookup "success" (process_urls store oracle urls user_id now).result =
      some (.vbool false) ∧
    List.lookup "error" (process_urls store oracle urls user_id now).result =
      some (.vstr (if urls = [] then "URLs list cannot be empty"
                   else "Maximum 10 URLs allowed")) := by
  by_cases he : urls = []
  · subst he
    have hl : load_urls store oracle [] user_id = (.error "URLs list cannot be empty", []) := by
      rw [load_urls, if_pos rfl]
    refine ⟨?_, ?_, ?_, ?_, ?_, ?_⟩ <;>
      simp [process_urls, hl, errorDict, List.lookup]
  · have h10 : urls.length > 10 := by
      cases h with
      | inl h0 => exact absurd h0 he
      | inr h1 => exact h1
    have hl : load_urls store oracle urls user_id = (.error "Maximum 10 URLs allowed", []) := by
      rw [load_urls, if_neg he, if_pos h10]
    refine ⟨?_, ?_, ?_, ?_, ?_, ?_⟩ <;>
      simp [process_urls, hl, he, errorDict, List.lookup]

open Preprocessing UrlFetcher UrlTracking in
/-- Witness for C5, scenario D of the spec: a batch of 11 URLs is rejected
with no fetch attempted. -/
theorem claim_C5_witness :
    (process_urls [] (fun _ => .ran .timeout) (List.replicate 11 "http://a") "u1" 0).fetched
      = [] ∧
    (process_urls [] (fun _ => .ran .timeout) (List.replicate 11 "http://a") "u1" 0).store
      = [] ∧
    (load_urls [] (fun _ => .ran .timeout) (List.replicate 11 "http://a") "u1").1 =
      .error (if List.replicate 11 "http://a" = ([] : List String)
              then "URLs list cannot be empty" else "Maximum 10 URLs allowed") ∧
    (process_urls [] (fun _ => .ran .timeout) (List.replicate 11 "http://a") "u1" 0).result =
      errorDict (if List.replicate 11 "http://a" = ([] : List String)
                 then "URLs list cannot be empty" else "Maximum 10 URLs allowed") ∧
    List.lookup "success"
        (process_urls [] (fun _ => .ran .timeout) (List.replicate 11 "http://a") "u1" 0).result =
      some (.vbool false) ∧
    List.lookup "error"
        (process_urls [] (fun _ => .ran .timeout) (List.replicate 11 "http://a") "u1" 0).result =
      some (.vstr (if List.replicate 11 "http://a" = ([] : List String)
                   then "URLs list cannot be empty" else "Maximum 10 URLs allowed")) :=
  claim_C5_validation_rejects_before_fetch [] (fun _ => .ran .timeout)
    (List.replicate 11 "http://a") "u1" 0 (Or.inr (by simp))

namespace UrlFetcher

/-- When navigation and extraction complete but the cleaned text is
shorter than 100 characters, `_fetch_async` fails with the
insufficient-content error. -/
theorem fetch_async_insufficient (url : String) (raw : List Char)
    (h : (clean_text raw).length < 100) :
    fetch_async url (.ok raw) =
      ⟨false, [], url, "playwright", some "Insufficient text content extracted"⟩ := by
  rw [fetch_async]
  simp [h]

/-- When the cleaned text has at least 100 characters, `_fetch_async`
succeeds and returns it. -/
theorem fetch_async_sufficient (url : String) (raw : List Char)
    (h : 100 ≤ (clean_text raw).length) :
    fetch_async url (.ok raw) = ⟨true, clean_text raw, url, "playwright", none⟩ := by
  rw [fetch_async]
  have hne : ¬ (clean_text raw = []) := by
    intro hc
    rw [hc] at h
    simp at h
  have hlt : ¬ ((clean_text raw).length < 100) := by omega
  simp [hne, hlt]

end UrlFetcher

open Preprocessing UrlFetcher UrlTracking in
/-- C6: a fetch whose cleaned text has fewer than 100 characters is a
failure with the insufficient-content error even though navigation
succeeded, while 100 or more cleaned characters give a success carrying
the cleaned text; and in a valid batch such a URL (new for this user)
lands in `load_urls`'s failed list with that error and in the
`failed_url_list` of the `process_urls` result. -/
theorem claim_C6_insufficient_content (store : Store) (oracle : String → TaskOutcome)
    (urls : List String) (user_id url : String) (raw : List Char) (now : Nat)
    (h1 : urls ≠ []) (h2 : urls.length ≤ 10) (hu : url ∈ urls)
    (hnp : is_url_processed store user_id url = false)
    (hor : oracle url = .ran (.ok raw))
    (hshort : (clean_text raw).length < 100) :
    fetch_async url (.ok raw) =
      ⟨false, [], url, "playwright", some "Insufficient text content extracted"⟩ ∧
    (∀ raw' : List Char, 100 ≤ (clean_text raw').length →
      fetch_async url (.ok raw') = ⟨true, clean_text raw', url, "playwright", none⟩) ∧
    (∃ lr : LoadOut, (load_urls store oracle urls user_id).1 = .ok lr ∧
      (url, "Insufficient text content extracted") ∈ lr.failed_urls ∧
      List.lookup "failed_url_list" (process_urls store oracle urls user_id now).result =
        some (.vstrlist (lr.failed_urls.map (fun f => f.1))) ∧
      url ∈ lr.failed_urls.map (fun f => f.1)) := by
  refine ⟨fetch_async_insufficient url raw hshort,
    fun raw' h => fetch_async_sufficient url raw' h, ?_⟩
  have h10 : ¬ (urls.length > 10) := by omega
  have hurl_new : url ∈ urls.filter (fun u => !(is_url_processed store user_id u)) :=
    List.mem_filter.mpr ⟨hu, by simp [hnp]⟩
  have hnew_ne : urls.filter (fun u => !(is_url_processed store user_id u)) ≠ [] :=
    List.ne_nil_of_mem hurl_new
  have hl : load_urls store oracle urls user_id =
      (.ok ⟨(fetch_multiple_async oracle
                (urls.filter (fun u => !(is_url_processed store user_id u)))).filterMap
              (fun r => if r.success then some ⟨r.text, r.url, r.method, user_id⟩ else none),
            urls.filter (fun u => !(is_url_processed store user_id u)),
            urls.filter (fun u => is_url_processed store user_id u),
            (fetch_multiple_async oracle
                (urls.filter (fun u => !(is_url_processed store user_id u)))).filterMap
              (fun r => if r.success then none else some (r.url, r.error.getD ""))⟩,
       urls.filter (fun u => !(is_url_processed store user_id u))) := by
    rw [load_urls, if_neg h1, if_neg h10]
    simp only [filter_new_urls_eq]
    rw [if_pos hnew_ne]
  have hres : gatherResult oracle url =
      ⟨false, [], url, "playwright", some "Insufficient text content extracted"⟩ := by
    rw [gatherResult, runTask, hor]
    exact fetch_async_insufficient url raw hshort
  have hmem_res : gatherResult oracle url ∈ fetch_multiple_async oracle
      (urls.filter (fun u => !(is_url_processed store user_id u))) := by
    rw [fetch_multiple_async_eq_map]
    exact List.mem_map_of_mem _ hurl_new
  have hfail_mem : (url, "Insufficient text content extracted") ∈
      (fetch_multiple_async oracle
          (urls.filter (fun u => !(is_url_processed store user_id u)))).filterMap
        (fun r => if r.success then none else some (r.url, r.error.getD "")) := by
    refine List.mem_filterMap.mpr ⟨gatherResult oracle url, hmem_res, ?_⟩
    rw [hres]
    simp
  refine ⟨_, by rw [hl], hfail_mem, ?_, ?_⟩
  · simp only [process_urls, hl]
    rfl
  · exact List.mem_map.mpr ⟨(url, "Insufficient text content extracted"), hfail_mem, rfl⟩

open Preprocessing UrlFetcher UrlTracking in
/-- Witness for C6, scenario B of the spec: a new URL whose rendered page
yields 40 characters of cleaned text ends in `failed_url_list` with the
insufficient-content error. -/
theorem claim_C6_witness :
    fetch_async "http://a" (.ok (List.replicate 40 'c')) =
      ⟨false, [], "http://a", "playwright", some "Insufficient text content extracted"⟩ ∧
    (∀ raw' : List Char, 100 ≤ (clean_text raw').length →
      fetch_async "http://a" (.ok raw') =
        ⟨true, clean_text raw', "http://a", "playwright", none⟩) ∧
    (∃ lr : LoadOut,
      (load_urls [] (fun _ => .ran (.ok (List.replicate 40 'c'))) ["http://a"] "u1").1 =
        .ok lr ∧
      ("http://a", "Insufficient text content extracted") ∈ lr.failed_urls ∧
      List.lookup "failed_url_list"
          (process_urls [] (fun _ => .ran (.ok (List.replicate 40 'c')))
            ["http://a"] "u1" 0).result =
        some (.vstrlist (lr.failed_urls.map (fun f => f.1))) ∧
      "http://a" ∈ lr.failed_urls.map (fun f => f.1)) :=
  claim_C6_insufficient_content [] (fun _ => .ran (.ok (List.replicate 40 'c')))
    ["http://a"] "u1" "http://a" (List.replicate 40 'c') 0
    (by simp) (by simp) (by simp) (by rfl) (by rfl) (by decide)

open Preprocessing UrlFetcher UrlTracking in
/-- C10: `process_urls` is total (it never propagates an exception) and
its result has exactly one of two shapes: the success shape (with
`success=true` and the `skipped_url_list`, `failed_url_list` and `message`
keys, and no `error` key), or the error shape built by the `except`
branch, which has `success=false`, an empty chunk list, all five counts
equal to 0, an `error` key, and none of the `skipped_url_list`,
`failed_url_list`, `message` keys. -/
theorem claim_C10_process_urls_total_shape (store : Store) (oracle : String → TaskOutcome)
    (urls : List String) (user_id : String) (now : Nat) :
    (List.lookup "success" (process_urls store oracle urls user_id now).result = some (.vbool true) ∧
     (∃ l, List.lookup "skipped_url_list" (process_urls store oracle urls user_id now).result = some (.vstrlist l)) ∧
     (∃ l, List.lookup "failed_url_list" (process_urls store oracle urls user_id now).result = some (.vstrlist l)) ∧
     (∃ m, List.lookup "message" (process_urls store oracle urls user_id now).result = some (.vstr m)) ∧
     List.lookup "error" (process_urls store oracle urls user_id now).result = none) ∨
    (∃ e, (process_urls store oracle urls user_id now).result = errorDict e ∧
     List.lookup "success" (process_urls store oracle urls user_id now).result = some (.vbool false) ∧
     List.lookup "chunks" (process_urls store oracle urls user_id now).result = some (.vchunks []) ∧
     List.lookup "num_documents" (process_urls store oracle urls user_id now).result = some (.vnat 0) ∧
     List.lookup "num_chunks" (process_urls store oracle urls user_id now).result = some (.vnat 0) ∧
     List.lookup "new_urls" (process_urls store oracle urls user_id now).result = some (.vnat 0) ∧
     List.lookup "skipped_urls" (process_urls store oracle urls user_id now).result = some (.vnat 0) ∧
     List.lookup "failed_urls" (process_urls store oracle urls user_id now).result = some (.vnat 0) ∧
     List.lookup "error" (process_urls store oracle urls user_id now).result = some (.vstr e) ∧
     List.lookup "skipped_url_list" (process_urls store oracle urls user_id now).result = none ∧
     List.lookup "failed_url_list" (process_urls store oracle urls user_id now).result = none ∧
     List.lookup "message" (process_urls store oracle urls user_id now).result = none) := by
  rcases hload : load_urls store oracle urls user_id with ⟨res, fetched⟩
  cases res with
  | error e =>
    right
    refine ⟨e, ?_⟩
    simp only [process_urls, hload]
    refine ⟨?_, ?_, ?_, ?_, ?_, ?_, ?_, ?_, ?_, ?_, ?_, ?_⟩ <;> first | rfl | trivial
  | ok lr =>
    left
    simp only [process_urls, hload]
    refine ⟨?_, ⟨lr.skipped_urls, ?_⟩, ⟨List.map (fun f : String × String => f.1)
      lr.failed_urls, ?_⟩, ⟨successMessage lr.documents.length lr.skipped_urls.length, ?_⟩, ?_⟩
      <;> rfl

namespace Preprocessing

open UrlTracking

/-- The success-tracking loop keeps the at-most-one-record-per-key
invariant. -/
theorem trackSuccesses_at_most_one (user_id : String) (now : Nat) (chunks : List LCDocument)
    (documents : List LCDocument) (store : Store)
    (h : ∀ u₀ l₀, countKey store u₀ l₀ ≤ 1) :
    ∀ u₀ l₀, countKey (trackSuccesses user_id now chunks documents store) u₀ l₀ ≤ 1 := by
  induction documents generalizing store with
  | nil => exact h
  | cons doc rest ih =>
    show ∀ u₀ l₀, countKey (List.foldl _ (if doc.source ≠ "" then _ else store) rest) u₀ l₀ ≤ 1
    by_cases hs : doc.source ≠ ""
    · rw [if_pos hs]
      exact ih _ (mark_at_most_one store user_id doc.source _ "success" now h)
    · rw [if_neg hs]
      exact ih _ h

/-- A run of `mark_url_processed` calls for other URLs does not change the
records of the key `(user_id, x)`. -/
theorem foldl_mark_failed_other (user_id : String) (now : Nat) (ps : List (String × String))
    (st : Store) (x : String) (hx : ∀ f ∈ ps, f.1 ≠ x) :
    (ps.foldl (fun st f => mark_url_processed st user_id f.1 0 "failed" now) st).filter
        (keyMatch user_id x) = st.filter (keyMatch user_id x) := by
  induction ps generalizing st with
  | nil => rfl
  | cons q rest ih =>
    rw [List.foldl_cons]
    rw [ih _ (fun f hf => hx f (List.mem_cons_of_mem q hf))]
    exact mark_filter_other st user_id q.1 0 "failed" now user_id x
      (fun hc => hx q (List.mem_cons_self q rest) hc.2.symm)

/-- After the failed-URL tracking loop of `process_urls`, every URL of the
failed list has exactly one record, with `num_chunks = 0` and
`status = "failed"`; the invariant is preserved. -/
theorem foldl_mark_failed_spec (user_id : String) (now : Nat) (ps : List (String × String))
    (st : Store) (h : ∀ u₀ l₀, countKey st u₀ l₀ ≤ 1) :
    (∀ u₀ l₀, countKey
        (ps.foldl (fun st f => mark_url_processed st user_id f.1 0 "failed" now) st) u₀ l₀ ≤ 1) ∧
    (∀ x ∈ ps.map (fun f => f.1),
      (ps.foldl (fun st f => mark_url_processed st user_id f.1 0 "failed" now) st).filter
          (keyMatch user_id x) = [⟨user_id, x, now, 0, "failed"⟩]) := by
  induction ps generalizing st with
  | nil => exact ⟨h, by simp⟩
  | cons q rest ih =>
    rw [List.foldl_cons]
    have hAMO' := mark_at_most_one st user_id q.1 0 "failed" now h
    obtain ⟨ihAMO, ihmem⟩ := ih _ hAMO'
    refine ⟨ihAMO, ?_⟩
    intro x hx
    rcases List.mem_map.mp hx with ⟨f, hf, hfx⟩
    rcases List.mem_cons.mp hf with hfq | hfrest
    · subst hfq
      by_cases hxr : x ∈ rest.map (fun f => f.1)
      · exact ihmem x hxr
      · have hothers : ∀ g ∈ rest, g.1 ≠ x := by
          intro g hg hc
          exact hxr (List.mem_map.mpr ⟨g, hg, hc⟩)
        rw [foldl_mark_failed_other user_id now rest _ x hothers]
        rw [← hfx]
        exact mark_filter_key st user_id f.1 0 "failed" now (h user_id f.1)
    · exact ihmem x (List.mem_map.mpr ⟨f, hfrest, hfx⟩)

end Preprocessing

open Preprocessing UrlFetcher UrlTracking in
/-- C7 (amended): for a valid batch in which some URLs fail, with a store
holding at most one record per key, `process_urls` still returns
`success = true`, every failed URL ends with exactly one record carrying
`status = "failed"` and `num_chunks = 0`, and the result carries the
literal skipped and failed URL lists — the failed list contains the bare
URLs only; the failure reasons stay in `load_urls`'s internal
`failed_urls` pairs and are not part of the caller-facing result. -/
theorem claim_C7_partial_success_recorded (store : Store) (oracle : String → TaskOutcome)
    (urls : List String) (user_id : String) (now : Nat) (lr : LoadOut)
    (h1 : urls ≠ []) (h2 : urls.length ≤ 10)
    (hAMO : ∀ u₀ l₀, countKey store u₀ l₀ ≤ 1)
    (hlr : (load_urls store oracle urls user_id).1 = .ok lr)
    (hsome : lr.failed_urls ≠ []) :
    List.lookup "success" (process_urls store oracle urls user_id now).result =
      some (.vbool true) ∧
    List.lookup "skipped_url_list" (process_urls store oracle urls user_id now).result =
      some (.vstrlist lr.skipped_urls) ∧
    List.lookup "failed_url_list" (process_urls store oracle urls user_id now).result =
      some (.vstrlist (lr.failed_urls.map (fun f => f.1))) ∧
    ∀ f ∈ lr.failed_urls,
      (process_urls store oracle urls user_id now).store.filter (keyMatch user_id f.1) =
        [⟨user_id, f.1, now, 0, "failed"⟩] := by
  rcases hload : load_urls store oracle urls user_id with ⟨res, fetched⟩
  rw [hload] at hlr
  simp only at hlr
  subst hlr
  simp only [process_urls, hload]
  have hAMO1 := trackSuccesses_at_most_one user_id now
    (chunk_documents lr.documents) lr.documents store hAMO
  obtain ⟨-, hmem⟩ := foldl_mark_failed_spec user_id now lr.failed_urls _ hAMO1
  refine ⟨rfl, rfl, rfl, ?_⟩
  intro f hf
  exact hmem f.1 (List.mem_map.mpr ⟨f, hf, rfl⟩)

namespace Preprocessing

/-- Whether a string occurs (as a substring) in a dictionary value. -/
def pyValMentions (s : String) : PyVal → Bool
  | .vbool _ => false
  | .vnat _ => false
  | .vstr t => containsSub s.toList t.toList
  | .vstrlist l => l.any (fun t => containsSub s.toList t.toList)
  | .vchunks cs => cs.any (fun c => containsSub s.toList c.page_content
      || containsSub s.toList c.source.toList
      || containsSub s.toList c.fetch_method.toList
      || containsSub s.toList c.user_id.toList)

/-- Whether a string occurs anywhere among the values of the result
dictionary. -/
def dictMentions (d : PyDict) (s : String) : Bool :=
  d.any (fun kv => pyValMentions s kv.2)

end Preprocessing

open Preprocessing UrlFetcher UrlTracking in
/-- Counterexample to C7 as stated: one new URL fails with the error
`"Browser timeout"`; `load_urls` records the pair (URL, reason)
internally, and the result lists the URL in `failed_url_list`, but the
failure reason appears nowhere in the caller-facing result — the failed
URLs are not accompanied by their failure reasons. -/
theorem claim_C7_counterexample :
    (load_urls [] (fun _ => .ran .timeout) ["http://a"] "u1").1 =
      .ok ⟨[], ["http://a"], [], [("http://a", "Browser timeout")]⟩ ∧
    List.lookup "failed_url_list"
        (process_urls [] (fun _ => .ran .timeout) ["http://a"] "u1" 0).result =
      some (.vstrlist ["http://a"]) ∧
    dictMentions (process_urls [] (fun _ => .ran .timeout) ["http://a"] "u1" 0).result
      "Browser timeout" = false := by
  refine ⟨by rfl, by decide, by decide⟩

open Preprocessing UrlFetcher UrlTracking in
/-- Witness for the amended C7 at the same concrete batch: one URL fails
with a browser timeout; the pipeline still reports `success = true`, the
URL is recorded as `status="failed"`, `num_chunks=0`, and the result
carries the literal URL lists. -/
theorem claim_C7_witness :
    List.lookup "success"
        (process_urls [] (fun _ => .ran .timeout) ["http://a"] "u1" 0).result =
      some (.vbool true) ∧
    List.lookup "skipped_url_list"
        (process_urls [] (fun _ => .ran .timeout) ["http://a"] "u1" 0).result =
      some (.vstrlist (LoadOut.mk [] ["http://a"] [] [("http://a", "Browser timeout")]).skipped_urls) ∧
    List.lookup "failed_url_list"
        (process_urls [] (fun _ => .ran .timeout) ["http://a"] "u1" 0).result =
      some (.vstrlist ((LoadOut.mk [] ["http://a"] [] [("http://a", "Browser timeout")]).failed_urls.map
        (fun f => f.1))) ∧
    ∀ f ∈ (LoadOut.mk [] ["http://a"] [] [("http://a", "Browser timeout")]).failed_urls,
      (process_urls [] (fun _ => .ran .timeout) ["http://a"] "u1" 0).store.filter
          (keyMatch "u1" f.1) =
        [⟨"u1", f.1, 0, 0, "failed"⟩] :=
  claim_C7_partial_success_recorded [] (fun _ => .ran .timeout) ["http://a"] "u1" 0
    ⟨[], ["http://a"], [], [("http://a", "Browser timeout")]⟩
    (by simp) (by simp) (fun u₀ l₀ => by simp [countKey]) (by rfl) (by decide)

open Preprocessing Embedding TextSplitter in
/-- C8 (amended): the chunks produced by `chunk_documents` carry no chunk
index of their own; the `chunk_id` written by `store_documents` is the
batch-global running index `0, 1, 2, …` over the whole chunk list
(contiguous within each document but starting at the document's offset in
the batch, not at 0); and every chunk belongs to exactly one document: it
carries that document's metadata and its text is one piece of the split of
that document's text alone. -/
theorem claim_C8_chunk_ids_batch_global (embed : List Char → List Int) (now : Nat)
    (docs : List LCDocument) :
    (store_documents embed now (chunk_documents docs)).map (fun v => v.metadata_chunk_id) =
      List.range (chunk_documents docs).length ∧
    ∀ c ∈ chunk_documents docs, ∃ d ∈ docs,
      c.source = d.source ∧ c.fetch_method = d.fetch_method ∧ c.user_id = d.user_id ∧
      c.page_content ∈ split_text 1000 200 defaultSeparators d.page_content := by
  constructor
  · rw [store_documents, List.map_map]
    exact List.enum_map_fst _
  · intro c hc
    rw [chunk_documents] at hc
    by_cases hd : docs = []
    · rw [if_pos hd] at hc
      exact absurd hc (List.not_mem_nil c)
    · rw [if_neg hd, split_documents] at hc
      rcases List.mem_flatMap.mp hc with ⟨d, hdm, hcd⟩
      rcases List.mem_map.mp hcd with ⟨t, htm, hct⟩
      exact ⟨d, hdm, by rw [← hct], by rw [← hct], by rw [← hct], by rw [← hct]; exact htm⟩

set_option maxRecDepth 8000 in
open Preprocessing Embedding TextSplitter in
/-- Counterexample to C8 as stated: a batch of two documents, each
yielding one chunk; the second document's chunk is stored with
`chunk_id = 1`, so the chunk indices within that document do not start at
0. -/
theorem claim_C8_counterexample :
    ((store_documents (fun _ => []) 0 (chunk_documents
        [⟨List.replicate 150 'b', "http://a", "playwright", "u1"⟩,
         ⟨List.replicate 150 'c', "http://b", "playwright", "u1"⟩])).filter
      (fun v => v.metadata_source = "http://b")).map (fun v => v.metadata_chunk_id) = [1] ∧
    ((store_documents (fun _ => []) 0 (chunk_documents
        [⟨List.replicate 150 'b', "http://a", "playwright", "u1"⟩,
         ⟨List.replicate 150 'c', "http://b", "playwright", "u1"⟩])).filter
      (fun v => v.metadata_source = "http://b")).map (fun v => v.metadata_chunk_id) ≠ [0] := by
  refine ⟨by decide, by decide⟩

open Preprocessing Embedding TextSplitter in
/-- Witness for the amended C8 at a concrete one-document batch. -/
theorem claim_C8_witness :
    (store_documents (fun _ => []) 0 (chunk_documents
        [⟨List.replicate 150 'b', "http://a", "playwright", "u1"⟩])).map
      (fun v => v.metadata_chunk_id) =
      List.range (chunk_documents
        [⟨List.replicate 150 'b', "http://a", "playwright", "u1"⟩]).length ∧
    ∀ c ∈ chunk_documents [⟨List.replicate 150 'b', "http://a", "playwright", "u1"⟩],
      ∃ d ∈ [(⟨List.replicate 150 'b', "http://a", "playwright", "u1"⟩ : LCDocument)],
      c.source = d.source ∧ c.fetch_method = d.fetch_method ∧ c.user_id = d.user_id ∧
      c.page_content ∈ split_text 1000 200 defaultSeparators d.page_content :=
  claim_C8_chunk_ids_batch_global (fun _ => []) 0
    [⟨List.replicate 150 'b', "http://a", "playwright", "u1"⟩]

/-! ## Non-whitespace tracking through cleaning and chunking
(auxiliary lemmas for C1: a successful fetch always yields at least one
chunk). -/

/-- `l` contains at least one non-whitespace character. -/
def hasNonWS (l : List Char) : Prop :=
  ∃ c ∈ l, isPyWhitespace c = false

theorem mem_dropWhile_of_not (p : Char → Bool) (l : List Char) (x : Char)
    (hx : x ∈ l) (hpx : p x = false) : x ∈ l.dropWhile p := by
  induction l with
  | nil => exact absurd hx (List.not_mem_nil x)
  | cons a rest ih =>
    by_cases ha : p a = true
    · rw [List.dropWhile_cons_of_pos ha]
      rcases List.mem_cons.mp hx with hxa | hxr
      · rw [hxa] at hpx; rw [hpx] at ha; exact absurd ha (by simp)
      · exact ih hxr
    · rw [List.dropWhile_cons_of_neg ha]
      exact hx

theorem head_dropWhile_not (p : Char → Bool) (l : List Char) (a : Char) (t : List Char)
    (h : l.dropWhile p = a :: t) : p a = false := by
  induction l with
  | nil => simp [List.dropWhile] at h
  | cons b rest ih =>
    by_cases hb : p b = true
    · rw [List.dropWhile_cons_of_pos hb] at h
      exact ih h
    · rw [List.dropWhile_cons_of_neg hb] at h
      cases h
      simpa using hb

theorem pyStrip_ne_nil_of_hasNonWS (l : List Char) (h : hasNonWS l) : pyStrip l ≠ [] := by
  obtain ⟨x, hx, hpx⟩ := h
  have h1 : x ∈ l.dropWhile isPyWhitespace := mem_dropWhile_of_not _ l x hx hpx
  have h2 : x ∈ (l.dropWhile isPyWhitespace).reverse := List.mem_reverse.mpr h1
  have h3 : x ∈ (l.dropWhile isPyWhitespace).reverse.dropWhile isPyWhitespace :=
    mem_dropWhile_of_not _ _ x h2 hpx
  rw [pyStrip]
  intro hc
  rw [List.reverse_eq_nil_iff] at hc
  rw [hc] at h3
  exact absurd h3 (List.not_mem_nil x)

theorem pyStrip_hasNonWS_of_ne_nil (l : List Char) (h : pyStrip l ≠ []) :
    hasNonWS (pyStrip l) := by
  rw [pyStrip] at h ⊢
  rcases hY : (l.dropWhile isPyWhitespace).reverse.dropWhile isPyWhitespace with _ | ⟨a, t⟩
  · rw [hY] at h; simp at h
  · refine ⟨a, ?_, head_dropWhile_not _ _ a t hY⟩
    exact List.mem_reverse.mpr (List.mem_cons_self a t)

theorem joinNl_mem_head (l₀ : List Char) (rest : List (List Char)) (c : Char) (hc : c ∈ l₀) :
    c ∈ joinNl (l₀ :: rest) := by
  cases rest with
  | nil => exact hc
  | cons l₁ r => exact List.mem_append.mpr (Or.inl hc)

open UrlFetcher in
/-- A non-empty cleaned text contains a non-whitespace character (each
kept line is stripped and non-empty, and its first character is not
whitespace). -/
theorem clean_text_hasNonWS (raw : List Char) (h : clean_text raw ≠ []) :
    hasNonWS (clean_text raw) := by
  rw [clean_text] at h ⊢
  rcases hl : (pySplitlines raw).filterMap
      (fun line => let s := pyStrip line; if s = [] then none else some s) with _ | ⟨l₀, rest⟩
  · rw [hl] at h; exact absurd rfl h
  · have hl₀ : l₀ ∈ (pySplitlines raw).filterMap
        (fun line => let s := pyStrip line; if s = [] then none else some s) := by
      rw [hl]; exact List.mem_cons_self l₀ rest
    rcases List.mem_filterMap.mp hl₀ with ⟨line, -, hline⟩
    simp only at hline
    by_cases hs : pyStrip line = []
    · rw [if_pos hs] at hline; cases hline
    · rw [if_neg hs] at hline
      have : l₀ = pyStrip line := by cases hline; rfl
      subst this
      obtain ⟨c, hc, hcp⟩ := pyStrip_hasNonWS_of_ne_nil line hs
      exact ⟨c, joinNl_mem_head _ rest c hc, hcp⟩

namespace TextSplitter

theorem flatten_map_singleton (l : List Char) :
    (l.map (fun c => [c])).flatten = l := by
  induction l with
  | nil => rfl
  | cons c rest ih => simp [ih]

/-- Reassembly invariant of the split worker: the first piece, followed by
the remaining pieces with the separator re-attached, recovers the
accumulator and the remaining text. -/
theorem splitOnSepGo_spec (s0 : Char) (srest : List Char) :
    ∀ (acc text : List Char), ∃ t0 ts, splitOnSepGo s0 srest acc text = t0 :: ts ∧
      t0 ++ (ts.map (fun t => (s0 :: srest) ++ t)).flatten = acc.reverse ++ text := by
  intro acc text
  induction acc, text using splitOnSepGo.induct s0 srest with
  | case1 acc =>
    exact ⟨acc.reverse, [], by rw [splitOnSepGo], by simp⟩
  | case2 acc c rest hpre ih =>
    obtain ⟨t0, ts, hsp, hflat⟩ := ih
    refine ⟨acc.reverse, t0 :: ts, ?_, ?_⟩
    · rw [splitOnSepGo, if_pos hpre, hsp]
    · have hp : (s0 :: srest) <+: (c :: rest) := List.isPrefixOf_iff_prefix.mp hpre
      obtain ⟨tail, htail⟩ := hp
      have hdrop : tail = List.drop srest.length rest := by
        have := congrArg (List.drop (s0 :: srest).length) htail
        rw [List.drop_left] at this
        simpa using this
      have hflat' : t0 ++ (ts.map (fun t => (s0 :: srest) ++ t)).flatten =
          List.drop srest.length rest := by simpa using hflat
      simp only [List.map_cons, List.flatten_cons]
      have hmain : ((s0 :: srest) ++ t0) ++ (ts.map (fun t => (s0 :: srest) ++ t)).flatten =
          c :: rest := by
        rw [List.append_assoc, hflat', ← hdrop]
        exact htail
      rw [hmain]
  | case3 acc c rest hpre ih =>
    obtain ⟨t0, ts, hsp, hflat⟩ := ih
    refine ⟨t0, ts, ?_, ?_⟩
    · rw [splitOnSepGo, if_neg hpre, hsp]
    · rw [hflat]
      simp

/-- The pieces produced by `splitKeepSep` concatenate back to the text. -/
theorem splitKeepSep_flatten (sep : List Char) (text : List Char) :
    (splitKeepSep sep text).flatten = text := by
  cases sep with
  | nil => rw [splitKeepSep]; exact flatten_map_singleton text
  | cons s0 srest =>
    obtain ⟨t0, ts, hsp, hflat⟩ := splitOnSepGo_spec s0 srest [] text
    rw [splitKeepSep, splitOnSep, hsp]
    have hfil : ∀ L : List (List Char),
        (L.filter (fun t => t ≠ [])).flatten = L.flatten := by
      intro L
      exact List.flatten_filter_ne_nil
    rw [hfil]
    simpa using hflat

end TextSplitter

namespace TextSplitter

/-- Invariant carried through the merge loop: a chunk has been emitted, or
the pending splits contain a non-whitespace character. -/
def mergeInv (st : MergeState) : Prop :=
  st.docs ≠ [] ∨ ∃ s ∈ st.current, hasNonWS s

theorem join_docs_some_of_hasNonWS (cur : List (List Char)) (s : List Char)
    (hs : s ∈ cur) (hnws : hasNonWS s) :
    join_docs cur = some (pyStrip cur.flatten) := by
  obtain ⟨c, hc, hcp⟩ := hnws
  have hflat : hasNonWS cur.flatten := ⟨c, List.mem_flatten.mpr ⟨s, hs, hc⟩, hcp⟩
  rw [join_docs]
  rw [if_neg (pyStrip_ne_nil_of_hasNonWS _ hflat)]

theorem mergeStep_inv (chunkSize chunkOverlap : Nat) (st : MergeState) (d : List Char)
    (h : mergeInv st ∨ hasNonWS d) :
    mergeInv (mergeStep chunkSize chunkOverlap st d) := by
  rw [mergeStep]
  by_cases hov : st.total + d.length > chunkSize
  · rw [if_pos hov]
    rcases h with (hdocs | ⟨s, hs, hnws⟩) | hd
    · left
      simp only
      by_cases hcur : st.current ≠ []
      · rw [if_pos hcur]
        cases hj : join_docs st.current with
        | none => exact hdocs
        | some doc => simp
      · rw [if_neg hcur]; exact hdocs
    · left
      have hcur : st.current ≠ [] := List.ne_nil_of_mem hs
      simp only
      rw [if_pos hcur, join_docs_some_of_hasNonWS st.current s hs hnws]
      simp
    · right
      exact ⟨d, List.mem_append.mpr (Or.inr (List.mem_singleton_self d)), hd⟩
  · rw [if_neg hov]
    rcases h with (hdocs | ⟨s, hs, hnws⟩) | hd
    · exact Or.inl hdocs
    · exact Or.inr ⟨s, List.mem_append.mpr (Or.inl hs), hnws⟩
    · exact Or.inr ⟨d, List.mem_append.mpr (Or.inr (List.mem_singleton_self d)), hd⟩

theorem foldl_mergeStep_inv (chunkSize chunkOverlap : Nat) (splits : List (List Char))
    (st : MergeState)
    (h : mergeInv st ∨ ∃ s ∈ splits, hasNonWS s) :
    mergeInv (splits.foldl (mergeStep chunkSize chunkOverlap) st) := by
  induction splits generalizing st with
  | nil =>
    rcases h with hst | ⟨s, hs, -⟩
    · exact hst
    · exact absurd hs (List.not_mem_nil s)
  | cons d rest ih =>
    rw [List.foldl_cons]
    apply ih
    rcases h with hst | ⟨s, hs, hnws⟩
    · exact Or.inl (mergeStep_inv chunkSize chunkOverlap st d (Or.inl hst))
    · rcases List.mem_cons.mp hs with hsd | hsr
      · exact Or.inl (mergeStep_inv chunkSize chunkOverlap st d (Or.inr (hsd ▸ hnws)))
      · exact Or.inr ⟨s, hsr, hnws⟩

/-- A split list containing a non-whitespace character merges to at least
one chunk. -/
theorem merge_splits_ne_nil (chunkSize chunkOverlap : Nat) (splits : List (List Char))
    (h : ∃ s ∈ splits, hasNonWS s) :
    merge_splits chunkSize chunkOverlap splits ≠ [] := by
  rw [merge_splits]
  have hinv := foldl_mergeStep_inv chunkSize chunkOverlap splits ⟨[], [], 0⟩ (Or.inr h)
  rcases hinv with hdocs | ⟨s, hs, hnws⟩
  · cases hj : join_docs (splits.foldl (mergeStep chunkSize chunkOverlap) ⟨[], [], 0⟩).current with
    | none => simpa using hdocs
    | some doc => simp
  · rw [join_docs_some_of_hasNonWS _ s hs hnws]
    simp

end TextSplitter

namespace TextSplitter

theorem append_singleton_ne_nil {α : Type} (l : List α) (a : α) : l ++ [a] ≠ [] := by
  simp

theorem append_ne_nil_left {α : Type} (l₁ l₂ : List α) (h : l₁ ≠ []) : l₁ ++ l₂ ≠ [] := by
  intro hc
  exact h (List.nil_eq_append.mp hc.symm).1

theorem append_ne_nil_right {α : Type} (l₁ l₂ : List α) (h : l₂ ≠ []) : l₁ ++ l₂ ≠ [] := by
  intro hc
  exact h (List.nil_eq_append.mp hc.symm).2

theorem splitsLoop_ne_nil (chunkSize chunkOverlap : Nat)
    (recSplit : List Char → List (List Char)) (noNewSeps : Bool)
    (hrec : ∀ s, hasNonWS s → recSplit s ≠ [])
    (splits final good : List (List Char))
    (h : final ≠ [] ∨ (∃ s ∈ good, hasNonWS s) ∨ (∃ s ∈ splits, hasNonWS s)) :
    splitsLoop chunkSize chunkOverlap recSplit noNewSeps splits final good ≠ [] := by
  induction splits generalizing final good with
  | nil =>
    rw [splitsLoop]
    rcases h with hf | ⟨s, hs, hnws⟩ | ⟨s, hs, -⟩
    · by_cases hg : good = []
      · rw [if_pos hg]; exact hf
      · rw [if_neg hg]; exact append_ne_nil_left _ _ hf
    · rw [if_neg (List.ne_nil_of_mem hs)]
      exact append_ne_nil_right _ _
        (merge_splits_ne_nil chunkSize chunkOverlap good ⟨s, hs, hnws⟩)
    · exact absurd hs (List.not_mem_nil s)
  | cons s rest ih =>
    rw [splitsLoop]
    by_cases hlen : s.length < chunkSize
    · rw [if_pos hlen]
      apply ih
      rcases h with hf | ⟨t, ht, hnws⟩ | ⟨t, ht, hnws⟩
      · exact Or.inl hf
      · exact Or.inr (Or.inl ⟨t, List.mem_append.mpr (Or.inl ht), hnws⟩)
      · rcases List.mem_cons.mp ht with hts | htr
        · exact Or.inr (Or.inl ⟨t, List.mem_append.mpr
            (Or.inr (by rw [← hts]; exact List.mem_singleton_self t)), hnws⟩)
        · exact Or.inr (Or.inr ⟨t, htr, hnws⟩)
    · rw [if_neg hlen]
      apply ih
      rcases h with hf | ⟨t, ht, hnws⟩ | ⟨t, ht, hnws⟩
      · refine Or.inl ?_
        have hf1 : (if good = [] then final
            else final ++ merge_splits chunkSize chunkOverlap good) ≠ [] := by
          by_cases hg : good = []
          · rw [if_pos hg]; exact hf
          · rw [if_neg hg]; exact append_ne_nil_left _ _ hf
        by_cases hb : noNewSeps <;> simp only [hb, if_true, if_false] <;>
          exact append_ne_nil_left _ _ hf1
      · refine Or.inl ?_
        have hf1 : (if good = [] then final
            else final ++ merge_splits chunkSize chunkOverlap good) ≠ [] := by
          rw [if_neg (List.ne_nil_of_mem ht)]
          exact append_ne_nil_right _ _
            (merge_splits_ne_nil chunkSize chunkOverlap good ⟨t, ht, hnws⟩)
        by_cases hb : noNewSeps <;> simp only [hb, if_true, if_false] <;>
          exact append_ne_nil_left _ _ hf1
      · rcases List.mem_cons.mp ht with hts | htr
        · subst hts
          refine Or.inl ?_
          by_cases hb : noNewSeps
          · simp only [hb, if_true]
            exact append_singleton_ne_nil _ _
          · simp only [hb, if_false]
            exact append_ne_nil_right _ _ (hrec t hnws)
        · exact Or.inr (Or.inr ⟨t, htr, hnws⟩)

/-- A text containing a non-whitespace character always splits into at
least one chunk, whatever the parameters. -/
theorem split_text_core_ne_nil (chunkSize chunkOverlap : Nat) :
    ∀ (fuel : Nat) (seps : List (List Char)) (text : List Char), hasNonWS text →
      split_text_core chunkSize chunkOverlap fuel seps text ≠ [] := by
  intro fuel
  induction fuel with
  | zero => intro seps text h; simp [split_text_core]
  | succ fuel ih =>
    intro seps text h
    rw [split_text_core]
    obtain ⟨c, hc, hcp⟩ := h
    have hcf : c ∈ (splitKeepSep (chooseSep seps text).1 text).flatten := by
      rw [splitKeepSep_flatten]; exact hc
    rcases List.mem_flatten.mp hcf with ⟨piece, hpm, hpc⟩
    exact splitsLoop_ne_nil chunkSize chunkOverlap _ _
      (fun s hs => ih (chooseSep seps text).2 s hs) _ [] []
      (Or.inr (Or.inr ⟨piece, hpm, ⟨c, hpc, hcp⟩⟩))

theorem split_text_ne_nil (chunkSize chunkOverlap : Nat) (seps : List (List Char))
    (text : List Char) (h : hasNonWS text) :
    split_text chunkSize chunkOverlap seps text ≠ [] :=
  split_text_core_ne_nil chunkSize chunkOverlap seps.length seps text h

end TextSplitter

theorem filterMap_if_pos {α β : Type} (q : α → Bool) (f : α → β) (l : List α) :
    l.filterMap (fun a => if q a then some (f a) else none) = (l.filter q).map f := by
  induction l with
  | nil => rfl
  | cons a rest ih =>
    by_cases ha : q a
    · simp [List.filterMap_cons, List.filter_cons, ha, ih]
    · simp [List.filterMap_cons, List.filter_cons, ha, ih]

theorem filterMap_if_neg {α β : Type} (q : α → Bool) (f : α → β) (l : List α) :
    l.filterMap (fun a => if q a then none else some (f a)) =
      (l.filter (fun a => !q a)).map f := by
  induction l with
  | nil => rfl
  | cons a rest ih =>
    by_cases ha : q a
    · simp [List.filterMap_cons, List.filter_cons, ha, ih]
    · simp [List.filterMap_cons, List.filter_cons, ha, ih]

namespace UrlFetcher

/-- The fetch engine echoes the input URLs, in order. -/
theorem fetch_multiple_async_map_url (oracle : String → TaskOutcome) (l : List String) :
    (fetch_multiple_async oracle l).map (fun r => r.url) = l := by
  rw [fetch_multiple_async_eq_map, List.map_map]
  have : ((fun r : FetchResult => r.url) ∘ gatherResult oracle) = fun u => u := by
    funext u
    exact gatherResult_url oracle u
  rw [this]
  simp

/-- A successful fetch result carries a cleaned text that contains a
non-whitespace character (it is non-empty, being at least 100 characters,
and `_clean_text` output starts every line with non-whitespace). -/
theorem success_text_hasNonWS (oracle : String → TaskOutcome) (l : List String)
    (r : FetchResult) (hr : r ∈ fetch_multiple_async oracle l) (hs : r.success = true) :
    hasNonWS r.text := by
  rw [fetch_multiple_async_eq_map] at hr
  rcases List.mem_map.mp hr with ⟨u, -, hru⟩
  subst hru
  rw [gatherResult, runTask] at hs ⊢
  revert hs
  cases ho : oracle u with
  | raised e => intro hs; exact Bool.noConfusion hs
  | ran nav =>
    intro hs
    change (fetch_async u nav).success = true at hs
    change hasNonWS (fetch_async u nav).text
    cases nav with
    | timeout => exact Bool.noConfusion hs
    | exn e => exact Bool.noConfusion hs
    | ok raw =>
      rw [fetch_async] at hs ⊢
      by_cases hshort : (clean_text raw = [] || decide ((clean_text raw).length < 100)) = true
      · rw [if_pos hshort] at hs
        simp at hs
      · rw [if_neg hshort] at hs ⊢
        simp only
        simp only [Bool.or_eq_true, not_or] at hshort
        exact clean_text_hasNonWS raw (by simpa using hshort.1)

end UrlFetcher

open Preprocessing UrlFetcher UrlTracking TextSplitter in
/-- C1: for every valid batch, `load_urls` succeeds and every input URL
lands in exactly one of the three outcomes: the `skipped` list (URLs with
a success record for this user), the `failed` list (fetch results with
`success = false`), or the succeeded documents; together the three lists
are a permutation of the input (no drops, no duplication), they are
pairwise disjoint whenever the input has no duplicate URLs, and every
succeeded URL owns at least one chunk of the chunked output. -/
theorem claim_C1_every_url_in_exactly_one_outcome (store : Store)
    (oracle : String → TaskOutcome) (urls : List String) (user_id : String)
    (h1 : urls ≠ []) (h2 : urls.length ≤ 10) :
    ∃ lr : LoadOut, (load_urls store oracle urls user_id).1 = .ok lr ∧
      (lr.skipped_urls ++ lr.failed_urls.map (fun f => f.1) ++
        lr.documents.map (fun d => d.source)).Perm urls ∧
      (urls.Nodup → (lr.skipped_urls ++ lr.failed_urls.map (fun f => f.1) ++
        lr.documents.map (fun d => d.source)).Nodup) ∧
      (∀ u ∈ lr.skipped_urls, is_url_processed store user_id u = true) ∧
      (∀ u ∈ lr.documents.map (fun d => d.source),
        1 ≤ ((chunk_documents lr.documents).filter (fun c => c.source = u)).length) := by
  have h10 : ¬ (urls.length > 10) := by omega
  by_cases hnew : urls.filter (fun u => !(is_url_processed store user_id u)) = []
  · have hl : load_urls store oracle urls user_id =
        (.ok ⟨[], urls.filter (fun u => !(is_url_processed store user_id u)),
              urls.filter (fun u => is_url_processed store user_id u), []⟩, []) := by
      rw [load_urls, if_neg h1, if_neg h10]
      simp only [filter_new_urls_eq]
      rw [if_neg (fun hc => hc hnew)]
    have hperm : (urls.filter (fun u => is_url_processed store user_id u) ++
        ([] : List (String × String)).map (fun f => f.1) ++
        ([] : List LCDocument).map (fun d => d.source)).Perm urls := by
      simp only [List.map_nil, List.append_nil]
      have := List.filter_append_perm (fun u => is_url_processed store user_id u) urls
      rw [hnew, List.append_nil] at this
      exact this
    refine ⟨_, by rw [hl], hperm, ?_, ?_, ?_⟩
    · intro hnd
      exact hperm.symm.nodup hnd
    · intro u hu
      exact (List.mem_filter.mp hu).2
    · intro u hu
      simp at hu
  · have hl : load_urls store oracle urls user_id =
        (.ok ⟨(fetch_multiple_async oracle
                  (urls.filter (fun u => !(is_url_processed store user_id u)))).filterMap
                (fun r => if r.success then some ⟨r.text, r.url, r.method, user_id⟩ else none),
              urls.filter (fun u => !(is_url_processed store user_id u)),
              urls.filter (fun u => is_url_processed store user_id u),
              (fetch_multiple_async oracle
                  (urls.filter (fun u => !(is_url_processed store user_id u)))).filterMap
                (fun r => if r.success then none else some (r.url, r.error.getD ""))⟩,
         urls.filter (fun u => !(is_url_processed store user_id u))) := by
      rw [load_urls, if_neg h1, if_neg h10]
      simp only [filter_new_urls_eq]
      rw [if_pos hnew]
    have hdocs : (fetch_multiple_async oracle
          (urls.filter (fun u => !(is_url_processed store user_id u)))).filterMap
        (fun r => if r.success then some (⟨r.text, r.url, r.method, user_id⟩ : LCDocument)
                  else none) =
        ((fetch_multiple_async oracle
            (urls.filter (fun u => !(is_url_processed store user_id u)))).filter
          (fun r => r.success)).map
          (fun r => (⟨r.text, r.url, r.method, user_id⟩ : LCDocument)) :=
      filterMap_if_pos _ _ _
    have hfail : (fetch_multiple_async oracle
          (urls.filter (fun u => !(is_url_processed store user_id u)))).filterMap
        (fun r => if r.success then none else some (r.url, r.error.getD "")) =
        ((fetch_multiple_async oracle
            (urls.filter (fun u => !(is_url_processed store user_id u)))).filter
          (fun r => !r.success)).map (fun r => (r.url, r.error.getD "")) :=
      filterMap_if_neg _ _ _
    have hperm : (urls.filter (fun u => is_url_processed store user_id u) ++
        ((fetch_multiple_async oracle
            (urls.filter (fun u => !(is_url_processed store user_id u)))).filterMap
          (fun r => if r.success then none else some (r.url, r.error.getD ""))).map
            (fun f => f.1) ++
        ((fetch_multiple_async oracle
            (urls.filter (fun u => !(is_url_processed store user_id u)))).filterMap
          (fun r => if r.success then some (⟨r.text, r.url, r.method, user_id⟩ : LCDocument)
                    else none)).map (fun d => d.source)).Perm urls := by
      rw [hdocs, hfail, List.map_map, List.map_map]
      have hinner : ((fetch_multiple_async oracle
            (urls.filter (fun u => !(is_url_processed store user_id u)))).filter
              (fun r => !r.success)).map (fun r => r.url) ++
          ((fetch_multiple_async oracle
            (urls.filter (fun u => !(is_url_processed store user_id u)))).filter
              (fun r => r.success)).map (fun r => r.url) |>.Perm
          (urls.filter (fun u => !(is_url_processed store user_id u))) := by
        have hp := List.filter_append_perm (fun r : FetchResult => r.success)
          (fetch_multiple_async oracle
            (urls.filter (fun u => !(is_url_processed store user_id u))))
        have hmapped := hp.map (fun r : FetchResult => r.url)
        rw [List.map_append] at hmapped
        have hcomm := List.perm_append_comm.trans hmapped
        rw [fetch_multiple_async_map_url] at hcomm
        exact hcomm
      rw [List.append_assoc]
      have := hinner.append_left (urls.filter (fun u => is_url_processed store user_id u))
      refine this.trans ?_
      have hfp := List.filter_append_perm (fun u => is_url_processed store user_id u) urls
      exact hfp
    refine ⟨_, by rw [hl], ?_, ?_, ?_, ?_⟩
    · exact hperm
    · intro hnd
      exact hperm.symm.nodup hnd
    · intro u hu
      exact (List.mem_filter.mp hu).2
    · intro u hu
      simp only at hu
      rcases List.mem_map.mp hu with ⟨d, hdm0, hds⟩
      have hdm := hdm0
      rw [hdocs] at hdm
      rcases List.mem_map.mp hdm with ⟨r, hrm, hrd⟩
      have hrs : r.success = true := (List.mem_filter.mp hrm).2
      have hrmem : r ∈ fetch_multiple_async oracle
          (urls.filter (fun u => !(is_url_processed store user_id u))) :=
        (List.mem_filter.mp hrm).1
      have htext : hasNonWS r.text := success_text_hasNonWS oracle _ r hrmem hrs
      have hdocs_ne : (fetch_multiple_async oracle
          (urls.filter (fun u => !(is_url_processed store user_id u)))).filterMap
          (fun r => if r.success then some (⟨r.text, r.url, r.method, user_id⟩ : LCDocument)
                    else none) ≠ [] := by
        rw [hdocs]
        intro hc
        rcases List.map_eq_nil_iff.mp hc with hfe
        rw [hfe] at hrm
        exact absurd hrm (List.not_mem_nil r)
      have hsplit_ne : split_text 1000 200 defaultSeparators d.page_content ≠ [] := by
        apply split_text_ne_nil
        rw [← hrd]
        exact htext
      rcases List.exists_mem_of_ne_nil _ hsplit_ne with ⟨t, ht⟩
      have hcm : ({ d with page_content := t } : LCDocument) ∈
          chunk_documents ((fetch_multiple_async oracle
            (urls.filter (fun u => !(is_url_processed store user_id u)))).filterMap
            (fun r => if r.success then some (⟨r.text, r.url, r.method, user_id⟩ : LCDocument)
                      else none)) := by
        rw [chunk_documents, if_neg hdocs_ne, split_documents]
        exact List.mem_flatMap.mpr ⟨d, hdm0, List.mem_map.mpr ⟨t, ht, rfl⟩⟩
      have hcs : ({ d with page_content := t } : LCDocument).source = u := hds
      have hcf : ({ d with page_content := t } : LCDocument) ∈
          (chunk_documents ((fetch_multiple_async oracle
            (urls.filter (fun u => !(is_url_processed store user_id u)))).filterMap
            (fun r => if r.success then some (⟨r.text, r.url, r.method, user_id⟩ : LCDocument)
                      else none))).filter (fun c => c.source = u) :=
        List.mem_filter.mpr ⟨hcm, by simp [hds]⟩
      exact List.length_pos.mpr (List.ne_nil_of_mem hcf)

open Preprocessing UrlFetcher UrlTracking TextSplitter in
/-- Witness for C1: a three-URL batch where one URL is already processed,
one succeeds with a 150-character page and one raises. -/
theorem claim_C1_witness :
    ∃ lr : LoadOut,
      (load_urls [⟨"u1", "http://b", 3, 7, "success"⟩]
        (fun u => if u = "http://a" then .ran (.ok (List.replicate 150 'b'))
                  else .raised "boom")
        ["http://a", "http://b", "http://c"] "u1").1 = .ok lr ∧
      (lr.skipped_urls ++ lr.failed_urls.map (fun f => f.1) ++
        lr.documents.map (fun d => d.source)).Perm ["http://a", "http://b", "http://c"] ∧
      ((["http://a", "http://b", "http://c"] : List String).Nodup →
        (lr.skipped_urls ++ lr.failed_urls.map (fun f => f.1) ++
          lr.documents.map (fun d => d.source)).Nodup) ∧
      (∀ u ∈ lr.skipped_urls,
        is_url_processed [⟨"u1", "http://b", 3, 7, "success"⟩] "u1" u = true) ∧
      (∀ u ∈ lr.documents.map (fun d => d.source),
        1 ≤ ((chunk_documents lr.documents).filter (fun c => c.source = u)).length) :=
  claim_C1_every_url_in_exactly_one_outcome [⟨"u1", "http://b", 3, 7, "success"⟩]
    (fun u => if u = "http://a" then .ran (.ok (List.replicate 150 'b'))
              else .raised "boom")
    ["http://a", "http://b", "http://c"] "u1" (by simp) (by simp)

/-! ## Sliding-window form of the splitter on separator-free text
(auxiliary development for C9). -/

namespace TextSplitter

/-- Closed form of the merge loop on a text split into single characters:
chunks of `chunkSize` characters advancing by `chunkSize - chunkOverlap`,
the final chunk taking whatever remains. -/
def windows (chunkSize chunkOverlap : Nat) (text : List Char) : List (List Char) :=
  if chunkSize ≤ chunkOverlap then [text]
  else if text.length ≤ chunkSize then [text]
  else text.take chunkSize :: windows chunkSize chunkOverlap
    (text.drop (chunkSize - chunkOverlap))
termination_by text.length
decreasing_by
  simp only [List.length_drop]
  omega

theorem dropWhile_eq_self_of_all_neg (p : Char → Bool) (l : List Char)
    (h : ∀ c ∈ l, p c = false) : l.dropWhile p = l := by
  cases l with
  | nil => rfl
  | cons c rest =>
    rw [List.dropWhile_cons_of_neg]
    simp [h c (List.mem_cons_self c rest)]

theorem pyStrip_eq_self_of_noWS (l : List Char) (h : ∀ c ∈ l, isPyWhitespace c = false) :
    pyStrip l = l := by
  rw [pyStrip, dropWhile_eq_self_of_all_neg _ l h,
    dropWhile_eq_self_of_all_neg _ l.reverse (fun c hc => h c (List.mem_reverse.mp hc)),
    List.reverse_reverse]

/-- `merge_splits` in terms of the final fold state. -/
theorem merge_splits_run (chunkSize chunkOverlap : Nat) (splits : List (List Char)) :
    merge_splits chunkSize chunkOverlap splits =
      (splits.foldl (mergeStep chunkSize chunkOverlap) ⟨[], [], 0⟩).docs ++
        (join_docs (splits.foldl (mergeStep chunkSize chunkOverlap) ⟨[], [], 0⟩).current).toList := by
  rw [merge_splits]
  cases join_docs (splits.foldl (mergeStep chunkSize chunkOverlap) ⟨[], [], 0⟩).current with
  | none => simp
  | some doc => simp

/-- Accumulation phase: while the pending splits stay within the chunk
size no chunk is emitted. -/
theorem foldl_mergeStep_accum (chunkSize chunkOverlap : Nat) (chars : List Char) :
    ∀ (pending : List Char) (docs : List (List Char)),
    pending.length + chars.length ≤ chunkSize →
    (chars.map (fun c => [c])).foldl (mergeStep chunkSize chunkOverlap)
        ⟨docs, pending.map (fun c => [c]), pending.length⟩ =
      ⟨docs, (pending ++ chars).map (fun c => [c]), (pending ++ chars).length⟩ := by
  induction chars with
  | nil => intro pending docs h; simp
  | cons c rest ih =>
    intro pending docs h
    simp only [List.map_cons, List.foldl_cons]
    have hstep : mergeStep chunkSize chunkOverlap
        ⟨docs, pending.map (fun c => [c]), pending.length⟩ [c] =
        ⟨docs, (pending ++ [c]).map (fun c => [c]), (pending ++ [c]).length⟩ := by
      rw [mergeStep]
      have hov : ¬ (pending.length + [c].length > chunkSize) := by
        simp only [List.length_singleton]
        simp only [List.length_cons] at h
        omega
      rw [if_neg hov]
      simp
    rw [hstep]
    have := ih (pending ++ [c]) docs (by simp at h ⊢; omega)
    simpa using this

/-- The pop loop on single-character splits drops characters from the
front until exactly `chunkOverlap` remain. -/
theorem popLoop_singletons (chunkSize chunkOverlap : Nat) (hov : chunkOverlap < chunkSize) :
    ∀ (pending : List Char), chunkOverlap ≤ pending.length →
    popLoop chunkOverlap chunkSize 1 (pending.map (fun c => [c])) pending.length =
      ((pending.drop (pending.length - chunkOverlap)).map (fun c => [c]), chunkOverlap) := by
  intro pending
  induction pending with
  | nil =>
    intro h
    simp only [List.length_nil, Nat.le_zero] at h
    simp [popLoop, h]
  | cons p ps ih =>
    intro h
    by_cases heq : chunkOverlap = (p :: ps).length
    · simp only [List.map_cons]
      rw [popLoop]
      have hcond : ¬ ((p :: ps).length > chunkOverlap ∨
          ((p :: ps).length + 1 > chunkSize ∧ (p :: ps).length > 0)) := by
        simp only [List.length_cons] at heq ⊢
        omega
      rw [if_neg hcond]
      rw [← heq]
      simp [heq]
    · have hlt : chunkOverlap < (p :: ps).length := by
        rcases Nat.lt_or_ge chunkOverlap (p :: ps).length with h1 | h2
        · exact h1
        · omega
      simp only [List.map_cons]
      rw [popLoop]
      rw [if_pos (Or.inl hlt)]
      have hlen : (p :: ps).length - [p].length = ps.length := by simp
      rw [hlen]
      have hov2 : chunkOverlap ≤ ps.length := by
        simp only [List.length_cons] at hlt
        omega
      rw [ih hov2]
      have hdrop : (p :: ps).drop ((p :: ps).length - chunkOverlap) =
          ps.drop (ps.length - chunkOverlap) := by
        have : (p :: ps).length - chunkOverlap = (ps.length - chunkOverlap) + 1 := by
          simp only [List.length_cons]
          omega
        rw [this, List.drop_succ_cons]
      rw [hdrop]

end TextSplitter

namespace TextSplitter

/-- The fold only ever appends to the emitted-chunk list. -/
theorem foldl_mergeStep_docs_prefix (chunkSize chunkOverlap : Nat)
    (splits : List (List Char)) :
    ∀ (d0 ds : List (List Char)) (cur : List (List Char)) (total : Nat),
    splits.foldl (mergeStep chunkSize chunkOverlap) ⟨d0 ++ ds, cur, total⟩ =
      ⟨d0 ++ (splits.foldl (mergeStep chunkSize chunkOverlap) ⟨ds, cur, total⟩).docs,
       (splits.foldl (mergeStep chunkSize chunkOverlap) ⟨ds, cur, total⟩).current,
       (splits.foldl (mergeStep chunkSize chunkOverlap) ⟨ds, cur, total⟩).total⟩ := by
  induction splits with
  | nil => intro d0 ds cur total; rfl
  | cons sp rest ih =>
    intro d0 ds cur total
    simp only [List.foldl_cons]
    have hstep : mergeStep chunkSize chunkOverlap ⟨d0 ++ ds, cur, total⟩ sp =
        ⟨d0 ++ (mergeStep chunkSize chunkOverlap ⟨ds, cur, total⟩ sp).docs,
         (mergeStep chunkSize chunkOverlap ⟨ds, cur, total⟩ sp).current,
         (mergeStep chunkSize chunkOverlap ⟨ds, cur, total⟩ sp).total⟩ := by
      rw [mergeStep, mergeStep]
      by_cases hov : total + sp.length > chunkSize
      · rw [if_pos hov, if_pos hov]
        by_cases hcur : cur ≠ []
        · simp only [hcur, if_true]
          cases join_docs cur with
          | none => simp
          | some doc => simp [hcur, List.append_assoc]
        · simp [hcur]
      · rw [if_neg hov, if_neg hov]
    rw [hstep]
    rw [ih d0]

/-- One character past a full pending window: the window is emitted and
the pending splits drop to the last `chunkOverlap` characters plus the
new one. -/
theorem mergeStep_emit (chunkSize chunkOverlap : Nat) (hov : chunkOverlap < chunkSize)
    (docs : List (List Char)) (pending : List Char) (c : Char)
    (hfull : pending.length = chunkSize)
    (hnws : ∀ x ∈ pending, isPyWhitespace x = false)
    (hne : pending ≠ []) :
    mergeStep chunkSize chunkOverlap ⟨docs, pending.map (fun c => [c]), pending.length⟩ [c] =
      ⟨docs ++ [pending],
       ((pending.drop (pending.length - chunkOverlap)) ++ [c]).map (fun c => [c]),
       chunkOverlap + 1⟩ := by
  rw [mergeStep]
  have hovf : pending.length + [c].length > chunkSize := by
    simp only [List.length_singleton]
    omega
  rw [if_pos hovf]
  have hcur : pending.map (fun c => [c]) ≠ [] := by
    simp [hne]
  simp only [hcur, if_true]
  have hjoin : join_docs (pending.map (fun c => [c])) = some pending := by
    rw [join_docs, flatten_map_singleton, pyStrip_eq_self_of_noWS pending hnws]
    rw [if_neg hne]
  rw [hjoin]
  have hpop := popLoop_singletons chunkSize chunkOverlap hov pending (by omega)
  have hdlen : ([c] : List Char).length = 1 := rfl
  rw [hdlen, hpop]
  simp [hne, List.map_append, List.map_drop]

end TextSplitter

namespace TextSplitter

/-- On a whitespace-free text split into single characters, the merge
loop produces exactly the sliding windows. -/
theorem merge_singletons_eq_windows (chunkSize chunkOverlap : Nat)
    (hov : chunkOverlap < chunkSize) :
    ∀ (n : Nat) (text : List Char), text.length ≤ n → text ≠ [] →
    (∀ c ∈ text, isPyWhitespace c = false) →
    merge_splits chunkSize chunkOverlap (text.map (fun c => [c])) =
      windows chunkSize chunkOverlap text := by
  intro n
  induction n with
  | zero =>
    intro text hlen hne _
    exact absurd (List.eq_nil_of_length_eq_zero (by omega)) hne
  | succ n ih =>
    intro text hlen hne hnws
    have hcsle : ¬ (chunkSize ≤ chunkOverlap) := by omega
    by_cases hsmall : text.length ≤ chunkSize
    · rw [merge_splits_run]
      have hinit : (⟨[], [], 0⟩ : MergeState) =
          ⟨[], ([] : List Char).map (fun c => [c]), ([] : List Char).length⟩ := rfl
      rw [hinit, foldl_mergeStep_accum chunkSize chunkOverlap text [] [] (by simpa using hsmall)]
      simp only [List.nil_append]
      rw [join_docs, flatten_map_singleton, pyStrip_eq_self_of_noWS text hnws, if_neg hne]
      rw [windows, if_neg hcsle, if_pos hsmall]
      rfl
    · push_neg at hsmall
      have hcspos : 0 < chunkSize := by omega
      -- decompose the text into the first window's worth and the rest
      have hdlen : (text.drop chunkSize).length = text.length - chunkSize := List.length_drop _ _
      rcases hd : text.drop chunkSize with _ | ⟨c, rest2⟩
      · rw [hd] at hdlen; simp at hdlen; omega
      have htake_len : (text.take chunkSize).length = chunkSize := by
        rw [List.length_take]; omega
      have htake_ne : text.take chunkSize ≠ [] := by
        intro hc
        rw [hc] at htake_len
        simp at htake_len
        omega
      have htake_nws : ∀ x ∈ text.take chunkSize, isPyWhitespace x = false :=
        fun x hx => hnws x ((List.take_sublist _ _).mem hx)
      -- the state after the first `chunkSize` characters
      have hphase1 : ((text.take chunkSize).map (fun c => [c])).foldl
          (mergeStep chunkSize chunkOverlap) ⟨[], [], 0⟩ =
          ⟨[], (text.take chunkSize).map (fun c => [c]), (text.take chunkSize).length⟩ := by
        have hinit : (⟨[], [], 0⟩ : MergeState) =
            ⟨[], ([] : List Char).map (fun c => [c]), ([] : List Char).length⟩ := rfl
        rw [hinit, foldl_mergeStep_accum chunkSize chunkOverlap (text.take chunkSize) [] []
          (by simp [htake_len])]
        simp
      -- the emission on the next character
      have hemit := mergeStep_emit chunkSize chunkOverlap hov [] (text.take chunkSize) c
        htake_len htake_nws htake_ne
      -- name the second text
      have htext2_eq : (text.take chunkSize).drop (chunkSize - chunkOverlap)
          = (text.drop (chunkSize - chunkOverlap)).take chunkOverlap := by
        rw [List.drop_take]
        have : chunkSize - (chunkSize - chunkOverlap) = chunkOverlap := by omega
        rw [this]
      have htext2_len : (text.drop (chunkSize - chunkOverlap)).length =
          text.length - (chunkSize - chunkOverlap) := List.length_drop _ _
      have hdrop_ov : (text.drop (chunkSize - chunkOverlap)).drop chunkOverlap =
          c :: rest2 := by
        rw [List.drop_drop, ← hd]
        have : chunkSize - chunkOverlap + chunkOverlap = chunkSize := by omega
        rw [this]
      have htake_ov1 : (text.drop (chunkSize - chunkOverlap)).take (chunkOverlap + 1) =
          (text.drop (chunkSize - chunkOverlap)).take chunkOverlap ++ [c] := by
        rw [List.take_add, hdrop_ov]
        rfl
      have hdrop_ov1 : (text.drop (chunkSize - chunkOverlap)).drop (chunkOverlap + 1) =
          rest2 := by
        have : chunkOverlap + 1 = chunkOverlap + 1 := rfl
        rw [← List.drop_drop, hdrop_ov]
        rfl
      -- the tail run of the whole text equals the tail run of text2
      have htot_len : ((text.drop (chunkSize - chunkOverlap)).take chunkOverlap ++ [c]).length
          = chunkOverlap + 1 := by
        rw [List.length_append, List.length_take, List.length_drop]
        simp only [List.length_singleton]
        omega
      have hphase2 : (((text.drop (chunkSize - chunkOverlap)).take (chunkOverlap + 1)).map
            (fun c => [c])).foldl (mergeStep chunkSize chunkOverlap) ⟨[], [], 0⟩ =
          ⟨[], ((text.drop (chunkSize - chunkOverlap)).take chunkOverlap ++ [c]).map
            (fun c => [c]), chunkOverlap + 1⟩ := by
        have hinit : (⟨[], [], 0⟩ : MergeState) =
            ⟨[], ([] : List Char).map (fun c => [c]), ([] : List Char).length⟩ := rfl
        rw [htake_ov1, hinit, foldl_mergeStep_accum chunkSize chunkOverlap
          ((text.drop (chunkSize - chunkOverlap)).take chunkOverlap ++ [c]) [] []
          (by simp only [List.length_nil]; rw [htot_len]; omega)]
        simp only [List.nil_append, htot_len]
      -- assemble the full fold of `text`
      have htext_split : text.map (fun c => [c]) =
          (text.take chunkSize).map (fun c => [c]) ++
          ([c] :: rest2.map (fun c => [c])) := by
        conv_lhs => rw [← List.take_append_drop chunkSize text]
        rw [List.map_append, hd]
        rfl
      have hfull : (text.map (fun c => [c])).foldl (mergeStep chunkSize chunkOverlap)
          ⟨[], [], 0⟩ =
          ⟨[text.take chunkSize] ++ ((rest2.map (fun c => [c])).foldl
              (mergeStep chunkSize chunkOverlap)
              ⟨[], ((text.drop (chunkSize - chunkOverlap)).take chunkOverlap ++ [c]).map
                (fun c => [c]), chunkOverlap + 1⟩).docs,
           ((rest2.map (fun c => [c])).foldl (mergeStep chunkSize chunkOverlap)
              ⟨[], ((text.drop (chunkSize - chunkOverlap)).take chunkOverlap ++ [c]).map
                (fun c => [c]), chunkOverlap + 1⟩).current,
           ((rest2.map (fun c => [c])).foldl (mergeStep chunkSize chunkOverlap)
              ⟨[], ((text.drop (chunkSize - chunkOverlap)).take chunkOverlap ++ [c]).map
                (fun c => [c]), chunkOverlap + 1⟩).total⟩ := by
        rw [htext_split, List.foldl_append, hphase1, List.foldl_cons]
        rw [htake_len] at hemit
        rw [htake_len, hemit, htext2_eq]
        have hpre : (⟨[] ++ [text.take chunkSize],
            ((text.drop (chunkSize - chunkOverlap)).take chunkOverlap ++ [c]).map
              (fun c => [c]), chunkOverlap + 1⟩ : MergeState) =
            ⟨[text.take chunkSize] ++ [],
            ((text.drop (chunkSize - chunkOverlap)).take chunkOverlap ++ [c]).map
              (fun c => [c]), chunkOverlap + 1⟩ := by simp
        rw [hpre, foldl_mergeStep_docs_prefix]
      -- the fold of text2 from scratch
      have htext2_split : (text.drop (chunkSize - chunkOverlap)).map (fun c => [c]) =
          ((text.drop (chunkSize - chunkOverlap)).take (chunkOverlap + 1)).map
            (fun c => [c]) ++ rest2.map (fun c => [c]) := by
        conv_lhs => rw [← List.take_append_drop (chunkOverlap + 1)
          (text.drop (chunkSize - chunkOverlap))]
        rw [List.map_append, hdrop_ov1]
      have hfull2 : ((text.drop (chunkSize - chunkOverlap)).map (fun c => [c])).foldl
          (mergeStep chunkSize chunkOverlap) ⟨[], [], 0⟩ =
          (rest2.map (fun c => [c])).foldl (mergeStep chunkSize chunkOverlap)
            ⟨[], ((text.drop (chunkSize - chunkOverlap)).take chunkOverlap ++ [c]).map
              (fun c => [c]), chunkOverlap + 1⟩ := by
        rw [htext2_split, List.foldl_append, hphase2]
      -- conclude by the induction hypothesis
      rw [merge_splits_run, hfull]
      simp only
      rw [windows, if_neg hcsle, if_neg (by omega)]
      have hih := ih (text.drop (chunkSize - chunkOverlap)) (by omega)
        (by intro hc
            have := congrArg List.length hc
            rw [htext2_len] at this
            simp at this
            omega)
        (fun x hx => hnws x (List.mem_of_mem_drop hx))
      rw [merge_splits_run, hfull2] at hih
      rw [← hih]
      simp

end TextSplitter

namespace TextSplitter

/-- When every split is below the chunk size, the split loop reduces to a
single merge of all splits. -/
theorem splitsLoop_all_good (chunkSize chunkOverlap : Nat)
    (recSplit : List Char → List (List Char)) (noNewSeps : Bool) :
    ∀ (splits final good : List (List Char)), (∀ s ∈ splits, s.length < chunkSize) →
    splitsLoop chunkSize chunkOverlap recSplit noNewSeps splits final good =
      if good ++ splits = [] then final
      else final ++ merge_splits chunkSize chunkOverlap (good ++ splits) := by
  intro splits
  induction splits with
  | nil =>
    intro final good _
    rw [splitsLoop]
    simp
  | cons s rest ih =>
    intro final good hsm
    rw [splitsLoop, if_pos (hsm s (List.mem_cons_self s rest))]
    rw [ih final (good ++ [s]) (fun t ht => hsm t (List.mem_cons_of_mem s ht))]
    have hne : good ++ [s] ++ rest ≠ [] := by simp
    have hne2 : good ++ s :: rest ≠ [] := by simp
    rw [if_neg hne, if_neg hne2]
    have : good ++ [s] ++ rest = good ++ s :: rest := by simp
    rw [this]

/-- If the head character of a non-empty separator occurs nowhere in the
text, the separator does not occur. -/
theorem containsSub_false_of_head_notin (s0 : Char) (srest : List Char) (text : List Char)
    (h : ∀ c ∈ text, c ≠ s0) : containsSub (s0 :: srest) text = false := by
  induction text with
  | nil => rfl
  | cons c rest ih =>
    rw [containsSub]
    have hpre : (s0 :: srest).isPrefixOf (c :: rest) = false := by
      rw [List.isPrefixOf]
      have : (s0 == c) = false := by
        simp only [beq_eq_false_iff_ne, ne_eq]
        exact fun hc => h c (List.mem_cons_self c rest) hc.symm
      rw [this]
      rfl
    rw [hpre]
    simp only [Bool.false_or]
    exact ih (fun x hx => h x (List.mem_cons_of_mem c hx))

/-- On a text avoiding all the configured separator characters, the
separator-selection loop falls through to the character separator with no
remaining separators. -/
theorem chooseSep_default_no_sep (text : List Char)
    (h : ∀ c ∈ text, c ≠ '\n' ∧ c ≠ '.' ∧ c ≠ ' ') :
    chooseSep defaultSeparators text = ([], []) := by
  have h1 : containsSub ['\n', '\n'] text = false :=
    containsSub_false_of_head_notin _ _ _ (fun c hc => (h c hc).1)
  have h2 : containsSub ['\n'] text = false :=
    containsSub_false_of_head_notin _ _ _ (fun c hc => (h c hc).1)
  have h3 : containsSub ['.'] text = false :=
    containsSub_false_of_head_notin _ _ _ (fun c hc => (h c hc).2.1)
  have h4 : containsSub [' '] text = false :=
    containsSub_false_of_head_notin _ _ _ (fun c hc => (h c hc).2.2)
  rw [defaultSeparators]
  rw [chooseSep]
  simp only [h1]
  rw [if_neg (by simp), if_neg (by simp)]
  rw [chooseSep]
  simp only [h2]
  rw [if_neg (by simp), if_neg (by simp)]
  rw [chooseSep]
  simp only [h3]
  rw [if_neg (by simp), if_neg (by simp)]
  rw [chooseSep]
  simp only [h4]
  rw [if_neg (by simp), if_neg (by simp)]
  rfl

/-- On a non-empty, whitespace-free text that contains none of the
separator characters, the configured splitter produces exactly the
sliding windows of `chunk_size` characters with `chunk_overlap` overlap. -/
theorem split_text_no_sep (chunkSize chunkOverlap : Nat) (hov : chunkOverlap < chunkSize)
    (hcs : 1 < chunkSize) (text : List Char) (hne : text ≠ [])
    (hsep : ∀ c ∈ text, c ≠ '\n' ∧ c ≠ '.' ∧ c ≠ ' ')
    (hnws : ∀ c ∈ text, isPyWhitespace c = false) :
    split_text chunkSize chunkOverlap defaultSeparators text =
      windows chunkSize chunkOverlap text := by
  rw [split_text]
  have hlen : defaultSeparators.length = 5 := rfl
  rw [hlen]
  rw [split_text_core]
  rw [chooseSep_default_no_sep text hsep]
  simp only
  rw [show splitKeepSep [] text = text.map (fun c => [c]) from rfl]
  rw [splitsLoop_all_good chunkSize chunkOverlap _ _ (text.map (fun c => [c])) [] []
    (by intro s hs
        rcases List.mem_map.mp hs with ⟨x, -, hx⟩
        rw [← hx]
        simpa using hcs)]
  have hmapne : ([] : List (List Char)) ++ text.map (fun c => [c]) ≠ [] := by
    simp [hne]
  rw [if_neg hmapne]
  simp only [List.nil_append]
  exact merge_singletons_eq_windows chunkSize chunkOverlap hov text.length text
    (Nat.le_refl _) hne hnws

end TextSplitter

/-! ## Claim C9: chunking a 2500-character clean text -/

namespace TextSplitter

/-- The lowercase alphabet. -/
def lowercaseLetters : List Char :=
  ['a', 'b', 'c', 'd', 'e', 'f', 'g', 'h', 'i', 'j', 'k', 'l', 'm',
   'n', 'o', 'p', 'q', 'r', 's', 't', 'u', 'v', 'w', 'x', 'y', 'z']

/-- A 2500-character clean text: the lowercase alphabet repeated.  It
contains no whitespace and none of the configured separator characters,
so the splitter degrades to pure character windows on it. -/
def cyc2500 : List Char :=
  (List.range 2500).map (fun i => lowercaseLetters.getD (i % 26) 'a')

theorem cyc2500_length : cyc2500.length = 2500 := by
  rw [cyc2500, List.length_map, List.length_range]

theorem cyc2500_mem_letters : ∀ c ∈ cyc2500, c ∈ lowercaseLetters := by
  intro c hc
  rcases List.mem_map.mp hc with ⟨i, -, hci⟩
  have hlt : i % 26 < lowercaseLetters.length := by
    have : i % 26 < 26 := Nat.mod_lt i (by norm_num)
    simpa [lowercaseLetters] using this
  rw [← hci, List.getD_eq_getElem lowercaseLetters 'a' hlt]
  exact List.getElem_mem hlt

theorem cyc2500_no_sep : ∀ c ∈ cyc2500, c ≠ '\n' ∧ c ≠ '.' ∧ c ≠ ' ' := by
  intro c hc
  have hall : ∀ x ∈ lowercaseLetters, x ≠ '\n' ∧ x ≠ '.' ∧ x ≠ ' ' := by decide
  exact hall c (cyc2500_mem_letters c hc)

theorem cyc2500_no_ws : ∀ c ∈ cyc2500, isPyWhitespace c = false := by
  intro c hc
  have hall : ∀ x ∈ lowercaseLetters, isPyWhitespace x = false := by decide
  exact hall c (cyc2500_mem_letters c hc)

theorem cyc2500_ne_nil : cyc2500 ≠ [] := by
  intro hc
  have := congrArg List.length hc
  rw [cyc2500_length] at this
  simp at this

/-- The three windows of the 2500-character text. -/
theorem cyc2500_split :
    split_text 1000 200 defaultSeparators cyc2500 =
      [cyc2500.take 1000, (cyc2500.drop 800).take 1000, cyc2500.drop 1600] := by
  rw [split_text_no_sep 1000 200 (by norm_num) (by norm_num) cyc2500 cyc2500_ne_nil
    cyc2500_no_sep cyc2500_no_ws]
  rw [windows, if_neg (by norm_num), if_neg (by rw [cyc2500_length]; norm_num)]
  have h800 : (1000 : Nat) - 200 = 800 := by norm_num
  rw [h800]
  rw [windows, if_neg (by norm_num),
    if_neg (by rw [List.length_drop, cyc2500_length]; norm_num), h800]
  rw [List.drop_drop]
  have h1600 : (800 : Nat) + 800 = 1600 := by norm_num
  rw [h1600]
  rw [windows, if_neg (by norm_num),
    if_pos (by rw [List.length_drop, cyc2500_length]; norm_num)]

end TextSplitter

namespace Preprocessing

open TextSplitter

/-- One pipeline document holding the 2500-character text. -/
def cycDoc : LCDocument := ⟨cyc2500, "http://long", "playwright", "u1"⟩

set_option maxRecDepth 4000 in
theorem cycDoc_chunks :
    chunk_documents [cycDoc] =
      [⟨cyc2500.take 1000, "http://long", "playwright", "u1"⟩,
       ⟨(cyc2500.drop 800).take 1000, "http://long", "playwright", "u1"⟩,
       ⟨cyc2500.drop 1600, "http://long", "playwright", "u1"⟩] := by
  rw [chunk_documents, if_neg (by simp), split_documents]
  rw [List.flatMap_cons, List.flatMap_nil]
  rw [show cycDoc.page_content = cyc2500 from rfl, cyc2500_split]
  rfl

theorem cycDoc_chunk_lengths :
    (chunk_documents [cycDoc]).map (fun c => c.page_content.length) = [1000, 1000, 900] := by
  rw [cycDoc_chunks]
  simp only [List.map_cons, List.map_nil]
  rw [List.length_take, List.length_take, List.length_drop, List.length_drop, cyc2500_length]
  norm_num

end Preprocessing

open Preprocessing TextSplitter in
/-- C9 (amended): a document whose clean text is 2500 separator-free
characters is chunked with the default parameters into exactly 3 chunks,
spanning 1000, 1000 and 900 characters (the splitter advances
`chunk_size - chunk_overlap = 800` positions per chunk, so the third
chunk spans positions 1600-2499), with consecutive chunks overlapping in
exactly 200 characters. -/
theorem claim_C9_2500_char_document_three_chunks :
    cyc2500.length = 2500 ∧
    chunk_documents [cycDoc] =
      [⟨cyc2500.take 1000, "http://long", "playwright", "u1"⟩,
       ⟨(cyc2500.drop 800).take 1000, "http://long", "playwright", "u1"⟩,
       ⟨cyc2500.drop 1600, "http://long", "playwright", "u1"⟩] ∧
    (chunk_documents [cycDoc]).length = 3 ∧
    (chunk_documents [cycDoc]).map (fun c => c.page_content.length) = [1000, 1000, 900] ∧
    (cyc2500.take 1000).drop 800 = (cyc2500.drop 800).take 200 ∧
    ((cyc2500.drop 800).take 1000).drop 800 = (cyc2500.drop 1600).take 200 := by
  refine ⟨cyc2500_length, cycDoc_chunks, ?_, cycDoc_chunk_lengths, ?_, ?_⟩
  · rw [cycDoc_chunks]
    rfl
  · rw [List.drop_take]
  · rw [List.drop_take, List.drop_drop]

open Preprocessing TextSplitter in
/-- Counterexample to C9 as stated: the 2500-character document produces
chunks of 1000, 1000 and 900 characters — not 1000, 1000 and 500 as
claimed (three windows with 200-character overlaps cover only 2100 of the
2500 characters if the last one has 500). -/
theorem claim_C9_counterexample :
    cyc2500.length = 2500 ∧
    (chunk_documents [cycDoc]).map (fun c => c.page_content.length) ≠ [1000, 1000, 500] := by
  refine ⟨cyc2500_length, ?_⟩
  rw [cycDoc_chunk_lengths]
  decide
